import Mathlib

/-!
Verification of `colossalai/shardformer/shard/sharder.py` (class `ModelSharder`).

The Python module performs in-place surgery on a module tree: `inject_model`
rebinds methods on the model's class, `replace_layer` walks the tree applying
per-origin-class rules, and `shard_one_layer` resolves weight/bias tensors by
dotted attribute path, slices them, records them in a binding map, and either
swaps in a freshly constructed replacement layer or installs the shards on the
existing node.

The shallow embedding below models Python values as a small dynamic value type
(`PyVal`), attribute namespaces as ordered association lists, dotted-path
get/set/has as explicit path walks, exceptions as an error component threaded
next to the mutated state (mutations made before an exception persist, as they
do for in-place Python mutation), and the construction of replacement layers as
trace events so that constructor arguments are observable.

External collaborators not present in the source file (the `getattr_`/
`setattr_`/`hasattr_` dotted-path utilities, the replacement-layer
constructors, and the binding-map consumer) are modelled from the spec; each
such definition carries a doc comment saying so.  The tensor slicer is kept
abstract: every function that slices takes the slicing function as an explicit
argument, since `Slicer` lives in another file and no claim depends on the
slice arithmetic itself.
-/

namespace Sharder

/-- A 2-D tensor: shape `(rows, cols)` plus flat integer entries.  Claims only
inspect shapes and compare tensors by value, so this is enough. -/
structure Tensor where
  rows : Nat
  cols : Nat
  entries : List Int
deriving DecidableEq, Repr

mutual
/-- A dynamically typed Python value: an object with a class name and an
ordered attribute namespace, a tensor, `None`, a number, a boolean, or a
string. -/
inductive PyVal where
  | obj (cls : String) (attrs : Attrs)
  | tensor (t : Tensor)
  | vnone
  | vnat (n : Nat)
  | vbool (b : Bool)
  | vstr (s : String)
deriving DecidableEq, Repr

/-- An ordered association list of attributes of a Python object. -/
inductive Attrs where
  | nil
  | cons (k : String) (v : PyVal) (rest : Attrs)
deriving DecidableEq, Repr
end

/-- Python error kinds raised (directly or latently) by the sharder code. -/
inductive PyError where
  | assertion
  | typeError
  | valueError
  | attributeError
  | notImplemented
  | unboundLocal
deriving DecidableEq, Repr

/-- Look an attribute up in an attribute list (first occurrence). -/
def Attrs.lookup : Attrs → String → Option PyVal
  | .nil, _ => none
  | .cons k v rest, a => if k = a then some v else rest.lookup a

/-- Set an attribute: update the first occurrence, or append when absent
(Python `setattr` creates missing attributes; insertion order is kept). -/
def Attrs.set : Attrs → String → PyVal → Attrs
  | .nil, a, x => .cons a x .nil
  | .cons k v rest, a, x =>
      if k = a then .cons k x rest else .cons k v (rest.set a x)

/-- Index of the last occurrence of a character, as Python `str.rfind` would
report it (before translation of the missing case to `-1`). -/
def lastIdxOf : List Char → Char → Option Nat
  | [], _ => none
  | c :: rest, d =>
      match lastIdxOf rest d with
      | some i => some (i + 1)
      | none => if c = d then some 0 else none

/-- Python `x.rfind(d)`: index of the last occurrence, `-1` when absent. -/
def pyRfind (cs : List Char) (d : Char) : Int :=
  match lastIdxOf cs d with
  | some i => (i : Int)
  | none => -1

/-- Python `x[:i]` on a character list: a nonnegative bound takes a prefix, a
negative bound counts from the end (clamped at zero). -/
def pySliceTo (cs : List Char) (i : Int) : List Char :=
  if 0 ≤ i then cs.take i.toNat else cs.take (cs.length - (-i).toNat)

/-- The source's `(lambda x: x[:x.rfind(".")])` from `shard_one_layer`
line 171: everything before the last dot — and, when there is no dot, the
string with its final character dropped (because `rfind` returns `-1`). -/
def stripToLastDot (s : String) : String :=
  ⟨pySliceTo s.data (pyRfind s.data '.')⟩

/-- Split a character list on the dot character, Python `str.split(".")`. -/
def splitDot : List Char → List (List Char)
  | [] => [[]]
  | c :: rest =>
      if c = '.' then [] :: splitDot rest
      else
        match splitDot rest with
        | [] => [[c]]
        | h :: t => (c :: h) :: t

/-- Components of a dotted attribute path, Python `attr.split(".")`. -/
def splitPath (s : String) : List String :=
  (splitDot s.data).map fun cs => ⟨cs⟩

/-- Walk a dotted path through nested objects; `none` when a component is
missing or an intermediate value is not an object. -/
def getPath : PyVal → List String → Option PyVal
  | v, [] => some v
  | .obj _ as, k :: rest =>
      match as.lookup k with
      | some v => getPath v rest
      | none => none
  | _, _ :: _ => none

/-- Replace the value at a dotted path: every intermediate component must
already exist (and be an object); the final component is created or updated,
as Python `setattr` does.  `none` signals the `AttributeError` the path walk
of the repository's `setattr_` utility would raise. -/
def setPath : PyVal → List String → PyVal → Option PyVal
  | _, [], _ => none
  | .obj c as, [k], x => some (.obj c (as.set k x))
  | .obj c as, k :: k2 :: rest, x =>
      match as.lookup k with
      | some child =>
          match setPath child (k2 :: rest) x with
          | some child2 => some (.obj c (as.set k child2))
          | none => none
      | none => none
  | _, _ :: _, _ => none

/-- Modelled from the spec: the repository's dotted-path `hasattr_` utility
(`colossalai/shardformer/utils/utils.py`, not under `src/`), "a small
path-resolution utility over a node's named-child/named-field maps, returning
an explicit found/not-found result". -/
def hasattr_ (v : PyVal) (attr : String) : Bool :=
  (getPath v (splitPath attr)).isSome

/-- Modelled from the spec: the repository's dotted-path `getattr_` utility
(not under `src/`); with `ignore` a missing path yields Python `None`. -/
def getattrIgnored (v : PyVal) (attr : String) : PyVal :=
  (getPath v (splitPath attr)).getD .vnone

/-- Modelled from the spec: the repository's dotted-path `setattr_` utility
(not under `src/`), with "a separate `ignore` flag controlling whether
not-found is silently tolerated by the caller". -/
def setattrE (v : PyVal) (attr : String) (x : PyVal) (ignore : Bool) :
    PyVal × Option PyError :=
  match setPath v (splitPath attr) x with
  | some v2 => (v2, none)
  | none => if ignore then (v, none) else (v, some .attributeError)

/-- Python truth-ish `is None` test used throughout `shard_one_layer`. -/
def isNone : PyVal → Bool
  | .vnone => true
  | _ => false

/-- Python `x == ""` where `x` may be any value: only a string can compare
equal to the empty string. -/
def pyEqEmptyStr : PyVal → Bool
  | .vstr s => s = ""
  | _ => false

/-- Python `x + suffix` where `x` may be any value: string concatenation when
`x` is a string, a `TypeError` otherwise. -/
def pyAddStr (x : PyVal) (suffix : String) : Except PyError String :=
  match x with
  | .vstr s => .ok (s ++ suffix)
  | _ => .error .typeError

/-- Python f-string interpolation `f"{x}"`: total, never raises. -/
def pyFormat : PyVal → String
  | .vstr s => s
  | .tensor _ => "<tensor>"
  | .obj c _ => "<" ++ c ++ ">"
  | .vnone => "None"
  | .vnat n => toString n
  | .vbool b => toString b

/-- Python `weight_attr or bias_attr` on optional strings: the first operand
unless it is falsy (`None` or the empty string). -/
def pyOrStr : Option String → Option String → Option String
  | some s, b => if s = "" then b else some s
  | none, b => b

/-- Tensor test, for the attribute accesses (`weight.shape`) that only a
tensor survives. -/
def isTensor : PyVal → Bool
  | .tensor _ => true
  | _ => false

/-- Python `child.__class__ == cls`, classes being identified by name. -/
def isinstanceOf (v : PyVal) (c : String) : Bool :=
  match v with
  | .obj c2 _ => c2 = c
  | _ => false

/-- The class of a slice-instruction object: the policy's `Col_Layer`,
`Row_Layer`, or some other `Layer` subclass. -/
inductive LayerKind where
  | col
  | row
  | other
deriving DecidableEq, Repr

/-- A slice instruction as produced by a policy `param_func`: dotted weight
and bias attribute paths, an optional replacement-layer class (by name), the
`ignore`-missing flag, and the `gather_output` flag carried by `Col_Layer`
instructions. -/
structure PolicyLayer where
  kind : LayerKind
  weight : Option String
  bias : Option String
  replace_layer : Option String
  ignore : Bool
  gather_output : Bool
deriving DecidableEq, Repr

/-- Observable events of one pass: a binding-map write, or the construction
of a replacement layer together with the constructor arguments it received. -/
inductive Event where
  | bindWrite (key : String) (w b : PyVal)
  | mkLinear (cls : String) (arg0 arg1 : Nat) (biasFlag : Bool) (gather : Option Bool)
  | mkEmbedding (cls : String) (arg0 arg1 : Nat) (padIdx : PyVal)
deriving DecidableEq, Repr

/-- Binding-map update: Python `self.binding_map[key] = dict(weight=w, bias=b)`
(update in place, insertion order kept, append when new). -/
def bmSet : List (String × PyVal × PyVal) → String → PyVal → PyVal →
    List (String × PyVal × PyVal)
  | [], k, w, b => [(k, w, b)]
  | e :: rest, k, w, b => if e.1 = k then (k, w, b) :: rest else e :: bmSet rest k w b

/-- Binding-map lookup. -/
def bmGet : List (String × PyVal × PyVal) → String → Option (PyVal × PyVal)
  | [], _ => none
  | e :: rest, k => if e.1 = k then some e.2 else bmGet rest k

/-- Lines 177-178: one binding-map write per class in `binding_layers`. -/
def bindAll (bm : List (String × PyVal × PyVal)) (keys : List String)
    (w b : PyVal) : List (String × PyVal × PyVal) :=
  keys.foldl (fun acc k => bmSet acc k w b) bm

/-- The trace events recording those binding-map writes. -/
def bindEvents (keys : List String) (w b : PyVal) : List Event :=
  keys.map fun k => .bindWrite k w b

/-- The mutable state a `shard_one_layer` call threads along: the node being
sharded, the sharder's binding map, the function-local `gather_output` and
`replace_layer` variables (unassigned at call entry), and the event trace. -/
structure SStep where
  node : PyVal
  bm : List (String × PyVal × PyVal)
  gather : Option Bool
  replVar : Option PyVal
  trace : List Event
deriving DecidableEq, Repr

/-- The tensor slicer, kept abstract: `Slicer.slice_weight_bias` lives outside
the source file, and no claim depends on the slice arithmetic. -/
abbrev SlicerFn := PyVal → PyVal → LayerKind → PyVal × PyVal

/-- Modelled from the spec: the replacement linear-layer constructor supplied
by the parallel-layer collaborator (outside `src/`), "accepting
`(rows, cols, bias: bool, [gather_output: bool])` for the linear-like kind";
the positional arguments it received are kept observable as attributes. -/
def mkLinearLike (cls : String) (a0 a1 : Nat) (biasFlag : Bool)
    (gather : Option Bool) : PyVal :=
  .obj cls (.cons "arg0" (.vnat a0) (.cons "arg1" (.vnat a1)
    (.cons "bias_flag" (.vbool biasFlag)
      (match gather with
       | some g => .cons "gather_output" (.vbool g) .nil
       | none => .nil))))

/-- Modelled from the spec: the replacement embedding-layer constructor
(outside `src/`), "accepting `(num_embeddings, embedding_dim, padding_idx)`
for the embedding kind". -/
def mkEmbeddingLike (cls : String) (a0 a1 : Nat) (padIdx : PyVal) : PyVal :=
  .obj cls (.cons "arg0" (.vnat a0) (.cons "arg1" (.vnat a1)
    (.cons "padding_idx" padIdx .nil)))

/-- Lines 225-238, `set_layer_size`: rewrite `out_features` from the shard row
count and `in_features` from the shard column count wherever the dotted
attribute already exists; `layer_attr` enters an f-string, so any value is
tolerated there. -/
def set_layer_size (layer : PyVal) (layer_attr : PyVal) (size : Nat × Nat) :
    PyVal × Option PyError :=
  let p0 := pyFormat layer_attr ++ ".out_features"
  let step1 :=
    if hasattr_ layer p0 then setattrE layer p0 (.vnat size.1) false
    else (layer, none)
  match step1 with
  | (l1, some e) => (l1, some e)
  | (l1, none) =>
      let p1 := pyFormat layer_attr ++ ".in_features"
      if hasattr_ l1 p1 then setattrE l1 p1 (.vnat size.2) false
      else (l1, none)

/-- Lines 221-222 of `set_param`: install the bias parameter.  The attribute
path is `"bias"` when `layer_attr` compares equal to the empty string, else
`layer_attr + ".bias"` — a `TypeError` when `layer_attr` is not a string.
`nn.Parameter` demands tensor data. -/
def setParamBias (layer : PyVal) (layer_attr : PyVal) (bias : PyVal) :
    PyVal × Option PyError :=
  if isNone bias then (layer, none)
  else
    match (if pyEqEmptyStr layer_attr then Except.ok "bias"
           else pyAddStr layer_attr ".bias") with
    | .error e => (layer, some e)
    | .ok bpath =>
        match bias with
        | .tensor _ => setattrE layer bpath bias false
        | _ => (layer, some .typeError)

/-- Lines 201-222, `set_param(layer, layer_attr="", weight=None, bias=None)`:
assert at least one tensor, install the weight (then update the cached layer
size), install the bias.  The parameters are kept dynamically typed because
line 189 of the source calls this function with a tensor in `layer_attr`
position. -/
def set_param (layer : PyVal) (layer_attr : PyVal) (weight : PyVal)
    (bias : PyVal) : PyVal × Option PyError :=
  if isNone weight && isNone bias then (layer, some .assertion)
  else if isNone weight then setParamBias layer layer_attr bias
  else
    match (if pyEqEmptyStr layer_attr then Except.ok "weight"
           else pyAddStr layer_attr ".weight") with
    | .error e => (layer, some e)
    | .ok wpath =>
        match weight with
        | .tensor t =>
            match setattrE layer wpath weight false with
            | (l1, some e) => (l1, some e)
            | (l1, none) =>
                match set_layer_size l1 layer_attr (t.rows, t.cols) with
                | (l2, some e) => (l2, some e)
                | (l2, none) => setParamBias l2 layer_attr bias
        | _ => (layer, some .typeError)

/-- Lines 153-163: resolve one declared attribute path on the node; an absent
path raises `ValueError` (the spec's `MissingAttributeError`) unless `ignore`
is set, in which case the side stays `None`. -/
def resolveAttr (node : PyVal) (attr : Option String) (ignore : Bool) :
    Except PyError PyVal :=
  match attr with
  | none => .ok .vnone
  | some a =>
      if hasattr_ node a then .ok (getattrIgnored node a)
      else if ignore then .ok .vnone
      else .error .valueError

/-- Lines 188-189: install the constructed replacement at `layer_attr`
(missing target tolerated iff `ignore`), then the source's
`self.set_param(replace_layer, weight, bias)` — positional, so the sliced
weight arrives in the `layer_attr` parameter and the sliced bias in the
`weight` parameter.  The installed object aliases `repl` in Python, so a
mutation made by `set_param` is reflected in the tree. -/
def installReplacement (st : SStep) (ignore : Bool) (layer_attr : String)
    (repl : PyVal) (w2 b2 : PyVal) : SStep × Option PyError :=
  match setPath st.node (splitPath layer_attr) repl with
  | some node1 =>
      let r := set_param repl w2 b2 .vnone
      match setPath node1 (splitPath layer_attr) r.1 with
      | some node2 => ({st with node := node2}, r.2)
      | none => ({st with node := node1}, r.2)
  | none =>
      if ignore then
        let r := set_param repl w2 b2 .vnone
        (st, r.2)
      else (st, some .attributeError)

/-- Lines 181-195: the replacement branch.  `getattr_(org_layer, layer_attr)`
(which raises on a missing path); a dense linear target dispatches on the
replacement class name — `Linear1D_Row` is built from
`(weight.shape[1], weight.shape[0])`, `Linear1D_Col` from
`(weight.shape[0], weight.shape[1])` plus the function-local `gather_output`
(unbound unless some `Col_Layer` instruction already ran in this call); any
other name leaves the function-local `replace_layer` from a previous
iteration in use, or unbound.  An embedding target is rebuilt from the shard
shape plus the original's `padding_idx`; any other target kind raises
`NotImplementedError` (the spec's `UnsupportedLayerError`). -/
def replaceStep (st : SStep) (ignore : Bool) (rcls : String)
    (layer_attr : String) (wt : Tensor) (b2 : PyVal) : SStep × Option PyError :=
  match getPath st.node (splitPath layer_attr) with
  | none => (st, some .attributeError)
  | some target =>
      if isinstanceOf target "Linear" then
        if rcls = "Linear1D_Row" then
          let repl := mkLinearLike rcls wt.cols wt.rows (!isNone b2) none
          let ev := Event.mkLinear rcls wt.cols wt.rows (!isNone b2) none
          installReplacement
            {st with replVar := some repl, trace := st.trace ++ [ev]}
            ignore layer_attr repl (.tensor wt) b2
        else if rcls = "Linear1D_Col" then
          match st.gather with
          | some g =>
              let repl := mkLinearLike rcls wt.rows wt.cols (!isNone b2) (some g)
              let ev := Event.mkLinear rcls wt.rows wt.cols (!isNone b2) (some g)
              installReplacement
                {st with replVar := some repl, trace := st.trace ++ [ev]}
                ignore layer_attr repl (.tensor wt) b2
          | none => (st, some .unboundLocal)
        else
          match st.replVar with
          | some stale => installReplacement st ignore layer_attr stale (.tensor wt) b2
          | none => (st, some .unboundLocal)
      else if isinstanceOf target "Embedding" then
        let padIdx := getattrIgnored st.node (layer_attr ++ ".padding_idx")
        let repl := mkEmbeddingLike rcls wt.rows wt.cols padIdx
        let ev := Event.mkEmbedding rcls wt.rows wt.cols padIdx
        installReplacement
          {st with replVar := some repl, trace := st.trace ++ [ev]}
          ignore layer_attr repl (.tensor wt) b2
      else (st, some .notImplemented)

/-- Lines 174-198 after slicing: the `print` on line 175 dereferences
`weight.shape` (and `bias.shape` when the bias is not `None`), the binding-map
writes, then either the replacement branch or the direct
`set_param(org_layer, layer_attr, weight, bias)` call. -/
def afterSlice (bls : List String) (st : SStep) (pl : PolicyLayer)
    (layer_attr : String) (w2 b2 : PyVal) : SStep × Option PyError :=
  match w2 with
  | .tensor wt =>
      if !isNone b2 && !isTensor b2 then (st, some .attributeError)
      else
        let st2 := {st with bm := bindAll st.bm bls w2 b2,
                            trace := st.trace ++ bindEvents bls w2 b2}
        match pl.replace_layer with
        | some rcls => replaceStep st2 pl.ignore rcls layer_attr wt b2
        | none =>
            let r := set_param st2.node (.vstr layer_attr) w2 b2
            ({st2 with node := r.1}, r.2)
  | _ => (st, some .attributeError)

/-- Lines 166-198 after attribute resolution: skip when both sides are `None`
and `ignore` is set; assert otherwise that one side exists; derive
`layer_attr` with the `rfind`-based strip of `weight_attr or bias_attr`;
slice; continue. -/
def afterResolve (slicer : SlicerFn) (bls : List String) (st : SStep)
    (pl : PolicyLayer) (weight bias : PyVal) : SStep × Option PyError :=
  if isNone weight && isNone bias && pl.ignore then (st, none)
  else if isNone weight && isNone bias then (st, some .assertion)
  else
    match pyOrStr pl.weight pl.bias with
    | none => (st, some .attributeError)
    | some wb =>
        let layer_attr := stripToLastDot wb
        let sl := slicer weight bias pl.kind
        afterSlice bls st pl layer_attr sl.1 sl.2

/-- Lines 149-151: the function-local `gather_output` is (re)assigned only
while the instruction's class is `Col_Layer`. -/
def gatherUpd (st : SStep) (pl : PolicyLayer) : SStep :=
  if pl.kind = .col then {st with gather := some pl.gather_output} else st

/-- Lines 142-198: process one slice instruction — the `gather_output`
update, then weight and bias resolution, then the post-resolution steps. -/
def processInstr (slicer : SlicerFn) (bls : List String) (st : SStep)
    (pl : PolicyLayer) : SStep × Option PyError :=
  let st1 := gatherUpd st pl
  match resolveAttr st1.node pl.weight pl.ignore with
  | .error e => (st1, some e)
  | .ok weight =>
      match resolveAttr st1.node pl.bias pl.ignore with
      | .error e => (st1, some e)
      | .ok bias => afterResolve slicer bls st1 pl weight bias

/-- The inner `for policy_layer in policy_layers` loop; the first exception
aborts the remaining instructions but keeps the mutations made so far. -/
def processInstrs (slicer : SlicerFn) (bls : List String) (st : SStep) :
    List PolicyLayer → SStep × Option PyError
  | [] => (st, none)
  | pl :: rest =>
      match processInstr slicer bls st pl with
      | (st2, none) => processInstrs slicer bls st2 rest
      | (st2, some e) => (st2, some e)

/-- The outer `for func in param_funcs` loop (each producer already applied to
its instruction list). -/
def processFuncs (slicer : SlicerFn) (bls : List String) (st : SStep) :
    List (List PolicyLayer) → SStep × Option PyError
  | [] => (st, none)
  | f :: rest =>
      match processInstrs slicer bls st f with
      | (st2, none) => processFuncs slicer bls st2 rest
      | (st2, some e) => (st2, some e)

/-- Lines 125-198, `shard_one_layer`: run every instruction of every
`param_func` against the matched node, threading the binding map and event
trace; the `gather_output` and `replace_layer` locals start unassigned. -/
def shard_one_layer (slicer : SlicerFn) (bls : List String) (node : PyVal)
    (bm : List (String × PyVal × PyVal)) (trace : List Event)
    (param_funcs : List (List PolicyLayer)) :
    (PyVal × List (String × PyVal × PyVal) × List Event) × Option PyError :=
  let r := processFuncs slicer bls ⟨node, bm, none, none, trace⟩ param_funcs
  ((r.1.node, r.1.bm, r.1.trace), r.2)

/-- Lines 114-115: apply every `attr_dict` override to a matched node with
`setattr_(child, k, v, ignore=True)` — a missing intermediate attribute is
silently tolerated. -/
def applyAttrDict (d : List (String × PyVal)) (v : PyVal) : PyVal :=
  d.foldl (fun acc kv => (setattrE acc kv.1 kv.2 true).1) v

mutual
/-- Lines 94-122, `reverse_replace_layer`: iterate `named_children()` of the
node — the node itself is never tested against `origin_cls` — and, for each
child, either the matched branch (overrides, `shard_one_layer`, `continue`,
so no descent into that child) or a recursive visit.  Non-module attributes
are not children and are skipped.  An exception stops the iteration while the
mutations already made persist. -/
def reverse_replace_layer (slicer : SlicerFn) (origin_cls : String)
    (attr_dict : List (String × PyVal)) (param_funcs : List (List PolicyLayer))
    (bls : List String) :
    PyVal → List (String × PyVal × PyVal) → List Event →
    (PyVal × List (String × PyVal × PyVal) × List Event) × Option PyError
  | .obj c as, bm, tr =>
      match rrlChildren slicer origin_cls attr_dict param_funcs bls as bm tr with
      | ((as2, bm2, tr2), e) => ((.obj c as2, bm2, tr2), e)
  | v, bm, tr => ((v, bm, tr), none)

/-- The `for name, child in layer.named_children()` loop of
`reverse_replace_layer`, over the attribute list of one node. -/
def rrlChildren (slicer : SlicerFn) (origin_cls : String)
    (attr_dict : List (String × PyVal)) (param_funcs : List (List PolicyLayer))
    (bls : List String) :
    Attrs → List (String × PyVal × PyVal) → List Event →
    (Attrs × List (String × PyVal × PyVal) × List Event) × Option PyError
  | .nil, bm, tr => ((.nil, bm, tr), none)
  | .cons k v rest, bm, tr =>
      if isinstanceOf v origin_cls then
        match shard_one_layer slicer bls (applyAttrDict attr_dict v) bm tr
            param_funcs with
        | ((v2, bm2, tr2), some e) => ((.cons k v2 rest, bm2, tr2), some e)
        | ((v2, bm2, tr2), none) =>
            match rrlChildren slicer origin_cls attr_dict param_funcs bls rest
                bm2 tr2 with
            | ((rest2, bm3, tr3), e) => ((.cons k v2 rest2, bm3, tr3), e)
      else
        match reverse_replace_layer slicer origin_cls attr_dict param_funcs bls
            v bm tr with
        | ((v2, bm2, tr2), some e) => ((.cons k v2 rest, bm2, tr2), some e)
        | ((v2, bm2, tr2), none) =>
            match rrlChildren slicer origin_cls attr_dict param_funcs bls rest
                bm2 tr2 with
            | ((rest2, bm3, tr3), e) => ((.cons k v2 rest2, bm3, tr3), e)
end

/-- One entry of the policy's `argument_policy` mapping: origin layer class,
attribute overrides, slice-instruction producers (already applied), and the
classes bound to this rule's shards. -/
structure Rule where
  origin_cls : String
  attr_dict : List (String × PyVal)
  param_funcs : List (List PolicyLayer)
  binding_layers : List String
deriving Repr

/-- Lines 73-91, `replace_layer`: run `reverse_replace_layer` once per rule,
in the policy's declared order; the first exception aborts the pass. -/
def replace_layer (slicer : SlicerFn) :
    List Rule → PyVal → List (String × PyVal × PyVal) → List Event →
    (PyVal × List (String × PyVal × PyVal) × List Event) × Option PyError
  | [], model, bm, tr => ((model, bm, tr), none)
  | r :: rest, model, bm, tr =>
      match reverse_replace_layer slicer r.origin_cls r.attr_dict r.param_funcs
          r.binding_layers model bm tr with
      | ((m2, bm2, tr2), some e) => ((m2, bm2, tr2), some e)
      | ((m2, bm2, tr2), none) => replace_layer slicer rest m2 bm2 tr2

/-- A Python class: its name and its `__dict__`. -/
structure PyClass where
  name : String
  dict : List (String × PyVal)
deriving DecidableEq, Repr

/-- First-occurrence lookup in a class `__dict__`. -/
def dictLookup : List (String × PyVal) → String → Option PyVal
  | [], _ => none
  | e :: rest, k => if e.1 = k then some e.2 else dictLookup rest k

/-- `setattr` on a class: update the first occurrence, append when new. -/
def dictSet : List (String × PyVal) → String → PyVal → List (String × PyVal)
  | [], k, v => [(k, v)]
  | e :: rest, k, v => if e.1 = k then (k, v) :: rest else e :: dictSet rest k v

/-- Lines 62-68: the rebinding loop of `inject_model` — for every key of the
shard-aware class's `__dict__`, if the model's class has that attribute,
rebind it to the shard-aware definition (the check reads the class as already
mutated by earlier iterations, exactly as Python does). -/
def injectFold (acc : List (String × PyVal)) :
    List (String × PyVal) → List (String × PyVal)
  | [] => acc
  | e :: rest =>
      injectFold (if (dictLookup acc e.1).isSome then dictSet acc e.1 e.2 else acc)
        rest

/-- Lines 45-70, `inject_model`: when the model's class equals the policy's
origin class, rebind the shared attributes; otherwise raise
`NotImplementedError` (the spec's `UnsupportedModelError`) with the class
table untouched. -/
def inject_model (modelCls org shard : PyClass) : PyClass × Option PyError :=
  if modelCls = org then
    ({modelCls with dict := injectFold modelCls.dict shard.dict}, none)
  else (modelCls, some .notImplemented)

/-- Modelled from the spec: the binding-map consumer is not in the source
file (`BindingMap` is "consumed by later occurrences of that class during the
same traversal"); a bound layer class reuses — rather than re-slices — the
shard pair recorded under its class key. -/
def bindingReuse (bm : List (String × PyVal × PyVal)) (cls : String) :
    Option (PyVal × PyVal) :=
  bmGet bm cls

/-- Join dotted-path components back together with dots. -/
def joinDots : List (List Char) → List Char
  | [] => []
  | [x] => x
  | x :: y :: rest => x ++ '.' :: joinDots (y :: rest)

/-- The claim's reading of line 171: "the path with its final dotted
component removed" — split on dots, drop the final component, rejoin. -/
def dropLastComponent (s : String) : String :=
  ⟨joinDots ((splitDot s.data).dropLast)⟩

theorem splitDot_ne_nil (cs : List Char) : splitDot cs ≠ [] := by
  cases cs with
  | nil => simp [splitDot]
  | cons c rest =>
      rw [splitDot]
      by_cases hc : c = '.'
      · simp [hc]
      · simp only [hc, if_false]
        cases h : splitDot rest <;> simp

theorem splitDot_no_dot {cs : List Char} (h : '.' ∉ cs) : splitDot cs = [cs] := by
  induction cs with
  | nil => rfl
  | cons c rest ih =>
      simp only [List.mem_cons, not_or] at h
      rw [splitDot]
      simp only [Ne.symm h.1, if_false]
      rw [ih h.2]

theorem lastIdxOf_none {cs : List Char} {d : Char} (h : lastIdxOf cs d = none) :
    d ∉ cs := by
  induction cs with
  | nil => simp
  | cons c rest ih =>
      rw [lastIdxOf] at h
      cases hr : lastIdxOf rest d with
      | some i => rw [hr] at h; exact absurd h (by simp)
      | none =>
          rw [hr] at h
          by_cases hc : c = d
          · rw [if_pos hc] at h; exact absurd h (by simp)
          · rw [if_neg hc] at h
            simp only [List.mem_cons, not_or]
            exact ⟨fun hcd => hc hcd.symm, ih hr⟩

theorem lastIdxOf_some_mem {cs : List Char} {d : Char} {i : Nat}
    (h : lastIdxOf cs d = some i) : d ∈ cs := by
  induction cs generalizing i with
  | nil => simp [lastIdxOf] at h
  | cons c rest ih =>
      rw [lastIdxOf] at h
      cases hr : lastIdxOf rest d with
      | some j => exact List.mem_cons_of_mem _ (ih hr)
      | none =>
          rw [hr] at h
          by_cases hc : c = d
          · exact hc ▸ List.mem_cons_self c rest
          · rw [if_neg hc] at h; exact absurd h (by simp)

theorem splitDot_two_of_mem {cs : List Char} (h : '.' ∈ cs) :
    2 ≤ (splitDot cs).length := by
  induction cs with
  | nil => simp at h
  | cons c rest ih =>
      rw [splitDot]
      by_cases hc : c = '.'
      · rw [if_pos hc]
        have hne : splitDot rest ≠ [] := splitDot_ne_nil rest
        have hpos : 0 < (splitDot rest).length := List.length_pos.mpr hne
        simp only [List.length_cons]
        omega
      · have hmem : '.' ∈ rest := by
          rcases List.mem_cons.mp h with h1 | h2
          · exact absurd h1.symm hc
          · exact h2
        have h2 := ih hmem
        rw [if_neg hc]
        cases hr : splitDot rest with
        | nil => exact absurd hr (splitDot_ne_nil rest)
        | cons a b =>
            rw [hr] at h2
            simp only [List.length_cons] at h2 ⊢
            omega

theorem joinDots_cons_char (c : Char) (h1 : List Char) (l : List (List Char)) :
    joinDots ((c :: h1) :: l) = c :: joinDots (h1 :: l) := by
  cases l with
  | nil => rfl
  | cons y w => simp [joinDots]

theorem joinDots_nil_cons {l : List (List Char)} (h : l ≠ []) :
    joinDots ([] :: l) = '.' :: joinDots l := by
  cases l with
  | nil => exact absurd rfl h
  | cons y w => simp [joinDots]

theorem take_lastIdx_eq_joinDots {cs : List Char} {i : Nat}
    (h : lastIdxOf cs '.' = some i) :
    cs.take i = joinDots ((splitDot cs).dropLast) := by
  induction cs generalizing i with
  | nil => simp [lastIdxOf] at h
  | cons c rest ih =>
      rw [lastIdxOf] at h
      cases hr : lastIdxOf rest '.' with
      | some j =>
          rw [hr] at h
          injection h with h1
          subst h1
          have hmem : '.' ∈ rest := lastIdxOf_some_mem hr
          have hlen : 2 ≤ (splitDot rest).length := splitDot_two_of_mem hmem
          have hih := ih hr
          cases hsp : splitDot rest with
          | nil => exact absurd hsp (splitDot_ne_nil rest)
          | cons h1 t1 =>
              cases t1 with
              | nil => rw [hsp] at hlen; simp at hlen
              | cons t1h t1t =>
                  rw [hsp] at hih
                  by_cases hc : c = '.'
                  · rw [List.take_succ_cons, splitDot, if_pos hc, hsp]
                    have hdrop : (([] : List Char) :: h1 :: t1h :: t1t).dropLast
                        = [] :: (h1 :: t1h :: t1t).dropLast := rfl
                    rw [hdrop, joinDots_nil_cons (by simp [List.dropLast]), hc, hih]
                  · rw [List.take_succ_cons, splitDot, if_neg hc, hsp]
                    have hdrop : ((c :: h1) :: t1h :: t1t).dropLast
                        = (c :: h1) :: (t1h :: t1t).dropLast := rfl
                    rw [hdrop, joinDots_cons_char, hih]
                    have hdrop2 : (h1 :: t1h :: t1t).dropLast
                        = h1 :: (t1h :: t1t).dropLast := rfl
                    rw [hdrop2]
      | none =>
          rw [hr] at h
          by_cases hc : c = '.'
          · rw [if_pos hc] at h
            injection h with h1
            subst h1
            have hnd : '.' ∉ rest := lastIdxOf_none hr
            rw [List.take_zero, splitDot, if_pos hc, splitDot_no_dot hnd]
            rfl
          · rw [if_neg hc] at h; exact absurd h (by simp)

theorem lastIdxOf_some_of_mem {cs : List Char} {d : Char} (h : d ∈ cs) :
    ∃ i, lastIdxOf cs d = some i := by
  induction cs with
  | nil => simp at h
  | cons c rest ih =>
      rw [lastIdxOf]
      cases hr : lastIdxOf rest d with
      | some j => exact ⟨j + 1, rfl⟩
      | none =>
          have hnd : d ∉ rest := lastIdxOf_none hr
          have hcd : c = d := by
            rcases List.mem_cons.mp h with h1 | h2
            · exact h1.symm
            · exact absurd h2 hnd
          exact ⟨0, by rw [if_pos hcd]⟩

theorem lastIdxOf_none_of_not_mem {cs : List Char} {d : Char} (h : d ∉ cs) :
    lastIdxOf cs d = none := by
  cases hr : lastIdxOf cs d with
  | none => rfl
  | some i => exact absurd (lastIdxOf_some_mem hr) h

/-- C9 (amended): the owning sub-path computed on line 171 by
`x[:x.rfind(".")]` equals the attribute path with its final dotted component
removed whenever the path contains a dot separator; on a single-component
path (no dot), `rfind` returns `-1` and the code instead drops the final
character of the path. -/
theorem c9_layer_attr_strip (s : String) :
    ('.' ∈ s.data → stripToLastDot s = dropLastComponent s) ∧
    ('.' ∉ s.data → stripToLastDot s = ⟨s.data.dropLast⟩) := by
  constructor
  · intro hmem
    obtain ⟨i, hi⟩ := lastIdxOf_some_of_mem hmem
    rw [stripToLastDot, dropLastComponent, pyRfind, hi]
    have hslice : pySliceTo s.data (i : Int) = s.data.take i := by
      rw [pySliceTo, if_pos (by omega)]
      simp
    rw [hslice, take_lastIdx_eq_joinDots hi]
  · intro hmem
    rw [stripToLastDot, pyRfind, lastIdxOf_none_of_not_mem hmem]
    have hslice : pySliceTo s.data (-1) = s.data.take (s.data.length - 1) := by
      rw [pySliceTo, if_neg (by omega)]
      rfl
    rw [hslice, ← List.dropLast_eq_take]

/-- C9 witness: the amended theorem applied to the two-component path
`"a.b"` (which strips to `"a"`) and to the dot-free path `"w"`. -/
theorem c9_layer_attr_strip_witness :
    stripToLastDot "a.b" = dropLastComponent "a.b" ∧
      stripToLastDot "w" = ⟨"w".data.dropLast⟩ :=
  ⟨(c9_layer_attr_strip "a.b").1 (by decide),
   (c9_layer_attr_strip "w").2 (by decide)⟩

/-- C9 counterexample: on the single-component path `"weight"` (no dot
separator), line 171 computes `"weigh"` — the final character dropped — and
not the path with its final dotted component removed, which would be the
empty string.  This refutes the claim's "for every path string, including
single-component paths containing no dot separator". -/
theorem c9_single_component_path :
    stripToLastDot "weight" = "weigh" ∧ dropLastComponent "weight" = "" ∧
      ("weigh" : String) ≠ "" := by
  refine ⟨by decide, by decide, by decide⟩

theorem dictLookup_dictSet_self (d : List (String × PyVal)) (k : String)
    (v : PyVal) : dictLookup (dictSet d k v) k = some v := by
  induction d with
  | nil => simp [dictSet, dictLookup]
  | cons e rest ih =>
      rw [dictSet]
      by_cases he : e.1 = k
      · rw [if_pos he, dictLookup, if_pos rfl]
      · rw [if_neg he, dictLookup, if_neg he, ih]

theorem dictLookup_dictSet_other (d : List (String × PyVal)) {k k2 : String}
    (v : PyVal) (h : k2 ≠ k) :
    dictLookup (dictSet d k2 v) k = dictLookup d k := by
  induction d with
  | nil => simp [dictSet, dictLookup, h]
  | cons e rest ih =>
      rw [dictSet]
      by_cases he : e.1 = k2
      · rw [if_pos he, dictLookup, dictLookup, he]
        rw [if_neg h, if_neg (he ▸ h)]
      · rw [if_neg he, dictLookup, dictLookup, ih]

theorem injectFold_not_mem (entries : List (String × PyVal))
    (acc : List (String × PyVal)) {k : String}
    (h : k ∉ entries.map Prod.fst) :
    dictLookup (injectFold acc entries) k = dictLookup acc k := by
  induction entries generalizing acc with
  | nil => rfl
  | cons e rest ih =>
      simp only [List.map_cons, List.mem_cons, not_or] at h
      rw [injectFold]
      rw [ih _ h.2]
      by_cases hp : (dictLookup acc e.1).isSome
      · rw [if_pos hp, dictLookup_dictSet_other _ _ (fun he => h.1 he.symm)]
      · rw [if_neg hp]

theorem injectFold_mem (entries : List (String × PyVal))
    (acc : List (String × PyVal)) {k : String} {v : PyVal}
    (hnd : (entries.map Prod.fst).Nodup) (hmem : (k, v) ∈ entries)
    (hpres : (dictLookup acc k).isSome) :
    dictLookup (injectFold acc entries) k = some v := by
  induction entries generalizing acc with
  | nil => simp at hmem
  | cons e rest ih =>
      simp only [List.map_cons, List.nodup_cons] at hnd
      rw [injectFold]
      rcases List.mem_cons.mp hmem with h1 | h2
      · subst h1
        rw [if_pos hpres]
        rw [injectFold_not_mem _ _ hnd.1]
        exact dictLookup_dictSet_self acc k v
      · have hke : e.1 ≠ k := by
          intro he
          exact hnd.1 (he ▸ List.mem_map_of_mem Prod.fst h2)
        by_cases hp : (dictLookup acc e.1).isSome
        · rw [if_pos hp]
          exact ih (dictSet acc e.1 e.2) hnd.2 h2
            (by rw [dictLookup_dictSet_other _ _ hke]; exact hpres)
        · rw [if_neg hp]
          exact ih acc hnd.2 h2 hpres

/-- C5: a model whose class differs from the policy's origin class makes
`inject_model` raise `NotImplementedError` (the spec's
`UnsupportedModelError`) with the class table returned untouched; on a
matching model, every attribute defined on the shard-aware class's `__dict__`
that is also present on the origin class is rebound to the shard-aware
definition. -/
theorem c5_inject_model (modelCls org shard : PyClass) :
    (modelCls ≠ org →
      inject_model modelCls org shard = (modelCls, some .notImplemented)) ∧
    (modelCls = org → (shard.dict.map Prod.fst).Nodup →
      ∀ k v, (k, v) ∈ shard.dict → (dictLookup modelCls.dict k).isSome →
        dictLookup (inject_model modelCls org shard).1.dict k = some v) := by
  constructor
  · intro hne
    rw [inject_model, if_neg hne]
  · intro heq hnd k v hmem hpres
    rw [inject_model, if_pos heq]
    exact injectFold_mem shard.dict modelCls.dict hnd hmem hpres

/-- A pass-through slicer used in concrete runs: the shard equals the full
tensor (a valid one-partition slicing). -/
def idSlicer : SlicerFn := fun w b _ => (w, b)

/-- Example weight tensor of shape `(2, 3)`. -/
def exTensor : Tensor := ⟨2, 3, [1, 2, 3, 4, 5, 6]⟩

/-- Example bias tensor of shape `(2, 1)`. -/
def exBias : Tensor := ⟨2, 1, [7, 8]⟩

/-- A dense linear layer holding `exTensor` and a `None` bias, as
`nn.Linear(3, 2, bias=False)` would. -/
def exLinear : PyVal :=
  .obj "Linear" (.cons "weight" (.tensor exTensor) (.cons "bias" .vnone .nil))

/-- A dense linear layer with both weight and bias tensors. -/
def exLinearB : PyVal :=
  .obj "Linear"
    (.cons "weight" (.tensor exTensor) (.cons "bias" (.tensor exBias) .nil))

/-- A module owning `exLinear` under the attribute `query`. -/
def exNode : PyVal := .obj "BertSelfAttention" (.cons "query" exLinear .nil)

/-- A module owning `exLinearB` under the attribute `query`. -/
def exNodeB : PyVal := .obj "BertSelfAttention" (.cons "query" exLinearB .nil)

/-- A row-wise slice instruction naming the `Linear1D_Row` replacement. -/
def exRowInstr : PolicyLayer :=
  ⟨.row, some "query.weight", some "query.bias", some "Linear1D_Row", false,
    false⟩

/-- The tree after the example run: the replacement instance sits at `query`,
holding only its constructor arguments — no installed parameters. -/
def exNodeAfterRow : PyVal :=
  .obj "BertSelfAttention"
    (.cons "query" (mkLinearLike "Linear1D_Row" 3 2 false none) .nil)

/-- C1 (code bug): on a matched node whose resolved weight is a `(2, 3)`
tensor and whose instruction names a replacement class, the replacement is
constructed and installed at `layer_attr`, but the source's positional call
`self.set_param(replace_layer, weight, bias)` (line 189) binds the sliced
weight to the `layer_attr` parameter and the sliced bias to the `weight`
parameter of `set_param(self, layer, layer_attr="", weight=None,
bias=None)`.  With a `None` bias both remaining parameters are `None` and
the `assert` on line 217 fires; with a tensor bias the path computation
`layer_attr + ".weight"` concatenates a tensor with a string and raises
`TypeError`.  Either way the sliced weight and bias are never installed into
the replacement instance, contradicting the claim (and the spec's step
"then weight/bias are installed into it"); the contrast with the correct
four-positional call on line 198 shows the intent. -/
theorem c1_replacement_set_param_slip :
    shard_one_layer idSlicer [] exNode [] [] [[exRowInstr]] =
      ((exNodeAfterRow, [], [Event.mkLinear "Linear1D_Row" 3 2 false none]),
        some .assertion) ∧
    getPath exNodeAfterRow (splitPath "query.weight") = none ∧
    getPath exNodeAfterRow (splitPath "query.bias") = none ∧
    (shard_one_layer idSlicer [] exNodeB [] [] [[exRowInstr]]).2 =
      some .typeError :=
  ⟨by decide, by decide, by decide, by decide⟩

@[simp] theorem gatherUpd_node (st : SStep) (pl : PolicyLayer) :
    (gatherUpd st pl).node = st.node := by
  rw [gatherUpd]; split <;> rfl

@[simp] theorem gatherUpd_bm (st : SStep) (pl : PolicyLayer) :
    (gatherUpd st pl).bm = st.bm := by
  rw [gatherUpd]; split <;> rfl

@[simp] theorem gatherUpd_trace (st : SStep) (pl : PolicyLayer) :
    (gatherUpd st pl).trace = st.trace := by
  rw [gatherUpd]; split <;> rfl

@[simp] theorem gatherUpd_replVar (st : SStep) (pl : PolicyLayer) :
    (gatherUpd st pl).replVar = st.replVar := by
  rw [gatherUpd]; split <;> rfl

theorem gatherUpd_gather (st : SStep) (pl : PolicyLayer) :
    (gatherUpd st pl).gather =
      if pl.kind = .col then some pl.gather_output else st.gather := by
  rw [gatherUpd]; split <;> rfl

/-- C7: an instruction whose weight and bias both resolve to `None` while its
`ignore` flag is set is skipped by the `continue` on line 167: no error, and
the node, the binding map and the event trace are all left exactly as they
were (only the function-local `gather_output` may have been reassigned by
lines 149-151, which run before the skip). -/
theorem c7_ignored_skip_noop (slicer : SlicerFn) (bls : List String)
    (st : SStep) (pl : PolicyLayer)
    (hw : resolveAttr st.node pl.weight pl.ignore = .ok .vnone)
    (hb : resolveAttr st.node pl.bias pl.ignore = .ok .vnone)
    (hig : pl.ignore = true) :
    processInstr slicer bls st pl = (gatherUpd st pl, none) ∧
    (gatherUpd st pl).node = st.node ∧ (gatherUpd st pl).bm = st.bm ∧
    (gatherUpd st pl).trace = st.trace := by
  refine ⟨?_, gatherUpd_node st pl, gatherUpd_bm st pl, gatherUpd_trace st pl⟩
  simp only [processInstr, gatherUpd_node, hw, hb]
  simp [afterResolve, isNone, hig]

/-- C7 witness: a concrete instruction whose declared weight path is absent
from the node (treated as `None` under `ignore`) and whose bias path is not
declared is skipped without touching the state. -/
theorem c7_ignored_skip_noop_witness :
    processInstr idSlicer []
        ⟨.obj "Block" .nil, [], none, none, []⟩
        ⟨.other, some "dense.weight", none, none, true, false⟩ =
      (gatherUpd ⟨.obj "Block" .nil, [], none, none, []⟩
        ⟨.other, some "dense.weight", none, none, true, false⟩, none) :=
  (c7_ignored_skip_noop idSlicer []
    ⟨.obj "Block" .nil, [], none, none, []⟩
    ⟨.other, some "dense.weight", none, none, true, false⟩
    rfl rfl rfl).1

/-- C6: a declared weight (or bias) attribute path absent from the matched
node makes `shard_one_layer` raise `ValueError` (the spec's
`MissingAttributeError`) when the instruction's `ignore` flag is unset,
leaving node, binding map and trace untouched; with `ignore` set, the missing
side is treated as `None` and processing continues with the remaining
post-resolution steps. -/
theorem c6_missing_attribute :
    (∀ (slicer : SlicerFn) (bls : List String) (node : PyVal)
        (bm : List (String × PyVal × PyVal)) (tr : List Event)
        (pl : PolicyLayer) (w : String),
      pl.weight = some w → hasattr_ node w = false → pl.ignore = false →
      shard_one_layer slicer bls node bm tr [[pl]] =
        ((node, bm, tr), some .valueError)) ∧
    (∀ (slicer : SlicerFn) (bls : List String) (st : SStep)
        (pl : PolicyLayer) (w : String) (bres : PyVal),
      pl.weight = some w → hasattr_ st.node w = false → pl.ignore = true →
      resolveAttr st.node pl.bias true = .ok bres →
      processInstr slicer bls st pl =
        afterResolve slicer bls (gatherUpd st pl) pl .vnone bres) ∧
    (∀ (slicer : SlicerFn) (bls : List String) (node : PyVal)
        (bm : List (String × PyVal × PyVal)) (tr : List Event)
        (pl : PolicyLayer) (b : String) (wres : PyVal),
      pl.bias = some b → hasattr_ node b = false → pl.ignore = false →
      resolveAttr node pl.weight false = .ok wres →
      shard_one_layer slicer bls node bm tr [[pl]] =
        ((node, bm, tr), some .valueError)) ∧
    (∀ (slicer : SlicerFn) (bls : List String) (st : SStep)
        (pl : PolicyLayer) (b : String) (wres : PyVal),
      pl.bias = some b → hasattr_ st.node b = false → pl.ignore = true →
      resolveAttr st.node pl.weight true = .ok wres →
      processInstr slicer bls st pl =
        afterResolve slicer bls (gatherUpd st pl) pl wres .vnone) := by
  refine ⟨?_, ?_, ?_, ?_⟩
  · intro slicer bls node bm tr pl w hwa hmiss hig
    simp only [shard_one_layer, processFuncs, processInstrs, processInstr,
      gatherUpd_node, hwa, hig]
    simp [resolveAttr, hmiss]
  · intro slicer bls st pl w bres hwa hmiss hig hb
    simp only [processInstr, gatherUpd_node, hwa, hig, hb]
    simp [resolveAttr, hmiss]
  · intro slicer bls node bm tr pl b wres hba hmiss hig hw
    simp only [shard_one_layer, processFuncs, processInstrs, processInstr,
      gatherUpd_node, hba, hig, hw]
    simp [resolveAttr, hmiss]
  · intro slicer bls st pl b wres hba hmiss hig hw
    simp only [processInstr, gatherUpd_node, hba, hig, hw]
    simp [resolveAttr, hmiss]

/-- C6 witness: a concrete instruction declaring the absent path
`"dense.weight"` with `ignore` unset makes `shard_one_layer` raise
`ValueError` without mutating anything. -/
theorem c6_missing_attribute_witness :
    shard_one_layer idSlicer [] (.obj "Block" .nil) [] []
        [[⟨.other, some "dense.weight", none, none, false, false⟩]] =
      (((.obj "Block" .nil), [], []), some .valueError) :=
  c6_missing_attribute.1 idSlicer [] (.obj "Block" .nil) [] []
    ⟨.other, some "dense.weight", none, none, false, false⟩ "dense.weight"
    rfl (by decide) rfl

/-- C4 counterexample: for the sliced weight of shape `(r, c) = (2, 3)` the
row-wise replacement is constructed with positional size arguments
`(weight.shape[1], weight.shape[0]) = (3, 2)` — not `(r, c) = (2, 3)` as the
claim states. -/
theorem c4_rowwise_args_swapped :
    (shard_one_layer idSlicer [] exNode [] [] [[exRowInstr]]).1.2.2 =
      [Event.mkLinear "Linear1D_Row" 3 2 false none] ∧
    Event.mkLinear "Linear1D_Row" 3 2 false none ≠
      Event.mkLinear "Linear1D_Row" 2 3 false none :=
  ⟨by decide, by decide⟩

theorem installReplacement_frame (st : SStep) (ign : Bool) (la : String)
    (repl w b : PyVal) :
    (installReplacement st ign la repl w b).1.bm = st.bm ∧
    (installReplacement st ign la repl w b).1.gather = st.gather ∧
    (installReplacement st ign la repl w b).1.trace = st.trace ∧
    (installReplacement st ign la repl w b).1.replVar = st.replVar := by
  rw [installReplacement]
  cases h1 : setPath st.node (splitPath la) repl with
  | some node1 =>
      cases h2 : setPath node1 (splitPath la) (set_param repl w b .vnone).1 <;>
        simp [h2]
  | none => by_cases hi : ign <;> simp [hi]

theorem isinstance_unique {v : PyVal} {c c2 : String}
    (h : isinstanceOf v c = true) (hne : c ≠ c2) : isinstanceOf v c2 = false := by
  cases v with
  | obj cls as =>
      simp only [isinstanceOf, decide_eq_true_eq] at h
      subst h
      simp [isinstanceOf, hne]
  | tensor t => rfl
  | vnone => rfl
  | vnat n => rfl
  | vbool b => rfl
  | vstr s => rfl

theorem replaceStep_row_trace (st : SStep) (ign : Bool) (la : String)
    (wt : Tensor) (b2 : PyVal) {target : PyVal}
    (ht : getPath st.node (splitPath la) = some target)
    (hli : isinstanceOf target "Linear" = true) :
    (replaceStep st ign "Linear1D_Row" la wt b2).1.trace =
      st.trace ++ [Event.mkLinear "Linear1D_Row" wt.cols wt.rows (!isNone b2) none] := by
  rw [replaceStep, ht]
  simp only [hli, if_true, if_pos rfl]
  rw [(installReplacement_frame _ _ _ _ _ _).2.2.1]

theorem replaceStep_col_trace (st : SStep) (ign : Bool) (la : String)
    (wt : Tensor) (b2 : PyVal) {target : PyVal} {g : Bool}
    (ht : getPath st.node (splitPath la) = some target)
    (hli : isinstanceOf target "Linear" = true)
    (hg : st.gather = some g) :
    (replaceStep st ign "Linear1D_Col" la wt b2).1.trace =
      st.trace ++
        [Event.mkLinear "Linear1D_Col" wt.rows wt.cols (!isNone b2) (some g)] := by
  rw [replaceStep, ht]
  simp only [hli, if_true, hg]
  rw [if_neg (show ("Linear1D_Col" : String) ≠ "Linear1D_Row" by decide)]
  rw [(installReplacement_frame _ _ _ _ _ _).2.2.1]

theorem replaceStep_col_unbound (st : SStep) (ign : Bool) (la : String)
    (wt : Tensor) (b2 : PyVal) {target : PyVal}
    (ht : getPath st.node (splitPath la) = some target)
    (hli : isinstanceOf target "Linear" = true)
    (hg : st.gather = none) :
    replaceStep st ign "Linear1D_Col" la wt b2 = (st, some .unboundLocal) := by
  rw [replaceStep, ht]
  simp only [hli, if_true, hg]
  rw [if_neg (show ("Linear1D_Col" : String) ≠ "Linear1D_Row" by decide)]

theorem replaceStep_embed_trace (st : SStep) (ign : Bool) (rcls : String)
    (la : String) (wt : Tensor) (b2 : PyVal) {target : PyVal}
    (ht : getPath st.node (splitPath la) = some target)
    (hle : isinstanceOf target "Embedding" = true) :
    (replaceStep st ign rcls la wt b2).1.trace =
      st.trace ++
        [Event.mkEmbedding rcls wt.rows wt.cols
          (getattrIgnored st.node (la ++ ".padding_idx"))] := by
  have hnl : isinstanceOf target "Linear" = false :=
    isinstance_unique hle (by decide)
  rw [replaceStep, ht]
  simp only [hnl, hle, if_true, if_false, Bool.false_eq_true]
  rw [(installReplacement_frame _ _ _ _ _ _).2.2.1]

theorem replaceStep_other (st : SStep) (ign : Bool) (rcls : String)
    (la : String) (wt : Tensor) (b2 : PyVal) {target : PyVal}
    (ht : getPath st.node (splitPath la) = some target)
    (hnl : isinstanceOf target "Linear" = false)
    (hne : isinstanceOf target "Embedding" = false) :
    replaceStep st ign rcls la wt b2 = (st, some .notImplemented) := by
  rw [replaceStep, ht]
  simp [hnl, hne]

/-- C4 (amended): with a non-`None` sliced weight of shape `(r, c)` and a
named replacement class, a dense linear target makes the row-wise replacement
be constructed from `(weight.shape[1], weight.shape[0]) = (c, r)` — not
`(r, c)` — with bias enabled iff the sliced bias is non-`None`; the
column-wise replacement is constructed from `(r, c)` and additionally carries
the gather-output flag; an embedding target is rebuilt from
`(r, c, padding_idx)`; any other target kind raises `NotImplementedError`
(the spec's `UnsupportedLayerError`). -/
theorem c4_replacement_construction (st : SStep) (ign : Bool) (rcls : String)
    (la : String) (wt : Tensor) (b2 : PyVal) (target : PyVal)
    (ht : getPath st.node (splitPath la) = some target) :
    (isinstanceOf target "Linear" = true → rcls = "Linear1D_Row" →
      (replaceStep st ign rcls la wt b2).1.trace =
        st.trace ++
          [Event.mkLinear rcls wt.cols wt.rows (!isNone b2) none]) ∧
    (isinstanceOf target "Linear" = true → rcls = "Linear1D_Col" →
      ∀ g, st.gather = some g →
      (replaceStep st ign rcls la wt b2).1.trace =
        st.trace ++
          [Event.mkLinear rcls wt.rows wt.cols (!isNone b2) (some g)]) ∧
    (isinstanceOf target "Embedding" = true →
      (replaceStep st ign rcls la wt b2).1.trace =
        st.trace ++
          [Event.mkEmbedding rcls wt.rows wt.cols
            (getattrIgnored st.node (la ++ ".padding_idx"))]) ∧
    (isinstanceOf target "Linear" = false →
      isinstanceOf target "Embedding" = false →
      replaceStep st ign rcls la wt b2 = (st, some .notImplemented)) := by
  refine ⟨?_, ?_, ?_, ?_⟩
  · intro hli hr
    subst hr
    exact replaceStep_row_trace st ign la wt b2 ht hli
  · intro hli hr g hg
    subst hr
    exact replaceStep_col_trace st ign la wt b2 ht hli hg
  · intro hle
    exact replaceStep_embed_trace st ign rcls la wt b2 ht hle
  · intro hnl hne
    exact replaceStep_other st ign rcls la wt b2 ht hnl hne

/-- C4 witness: the amended theorem applied to a concrete `(2, 3)` shard on a
linear target with the `Linear1D_Row` replacement — constructed from
`(3, 2)`, bias disabled because the sliced bias is `None`. -/
theorem c4_replacement_construction_witness :
    (replaceStep ⟨exNode, [], none, none, []⟩ false "Linear1D_Row" "query"
        exTensor .vnone).1.trace =
      [] ++ [Event.mkLinear "Linear1D_Row" 3 2 false none] :=
  (c4_replacement_construction ⟨exNode, [], none, none, []⟩ false
    "Linear1D_Row" "query" exTensor .vnone exLinear rfl).1 rfl rfl

theorem replaceStep_gather (st : SStep) (ign : Bool) (rcls la : String)
    (wt : Tensor) (b2 : PyVal) :
    (replaceStep st ign rcls la wt b2).1.gather = st.gather := by
  rw [replaceStep]
  cases ht : getPath st.node (splitPath la) with
  | none => rfl
  | some target =>
      by_cases hl : isinstanceOf target "Linear"
      · simp only [hl, if_true]
        by_cases hr : rcls = "Linear1D_Row"
        · rw [if_pos hr]
          exact (installReplacement_frame _ _ _ _ _ _).2.1
        · rw [if_neg hr]
          by_cases hc : rcls = "Linear1D_Col"
          · rw [if_pos hc]
            cases hg : st.gather with
            | some g => exact (installReplacement_frame _ _ _ _ _ _).2.1
            | none => exact hg
          · rw [if_neg hc]
            cases hrv : st.replVar with
            | some stale => exact (installReplacement_frame _ _ _ _ _ _).2.1
            | none => rfl
      · simp only [hl, Bool.false_eq_true, if_false]
        by_cases he : isinstanceOf target "Embedding"
        · simp only [he, if_true]
          exact (installReplacement_frame _ _ _ _ _ _).2.1
        · simp only [he, Bool.false_eq_true, if_false]

theorem afterSlice_gather (bls : List String) (st : SStep) (pl : PolicyLayer)
    (la : String) (w2 b2 : PyVal) :
    (afterSlice bls st pl la w2 b2).1.gather = st.gather := by
  cases w2 with
  | tensor wt =>
      rw [afterSlice]
      by_cases hb : (!isNone b2 && !isTensor b2) = true
      · rw [if_pos hb]
      · rw [if_neg hb]
        cases hrc : pl.replace_layer with
        | some rcls => exact replaceStep_gather _ _ _ _ _ _
        | none => rfl
  | obj c as => rfl
  | vnone => rfl
  | vnat n => rfl
  | vbool b => rfl
  | vstr s => rfl

theorem afterResolve_gather (slicer : SlicerFn) (bls : List String)
    (st : SStep) (pl : PolicyLayer) (weight bias : PyVal) :
    (afterResolve slicer bls st pl weight bias).1.gather = st.gather := by
  rw [afterResolve]
  by_cases h1 : (isNone weight && isNone bias && pl.ignore) = true
  · rw [if_pos h1]
  · rw [if_neg h1]
    by_cases h2 : (isNone weight && isNone bias) = true
    · rw [if_pos h2]
    · rw [if_neg h2]
      cases h3 : pyOrStr pl.weight pl.bias with
      | none => rfl
      | some wb => exact afterSlice_gather _ _ _ _ _ _

theorem processInstr_gather (slicer : SlicerFn) (bls : List String)
    (st : SStep) (pl : PolicyLayer) :
    (processInstr slicer bls st pl).1.gather =
      if pl.kind = .col then some pl.gather_output else st.gather := by
  rw [processInstr]
  cases hw : resolveAttr (gatherUpd st pl).node pl.weight pl.ignore with
  | error e => simp [gatherUpd_gather]
  | ok w =>
      cases hb : resolveAttr (gatherUpd st pl).node pl.bias pl.ignore with
      | error e => simp [gatherUpd_gather]
      | ok b => simp only []; rw [afterResolve_gather, gatherUpd_gather]

/-- C10: the function-local `gather_output` is assigned only while a
`Col_Layer` instruction is being processed (so after any instruction the
local holds the most recent `Col_Layer`'s flag, unchanged by other
instructions); a `Linear1D_Col` replacement reached while the local is still
unassigned (as it is at `shard_one_layer` entry) raises an unbound-local
error; and when it is assigned, the constructed column-wise replacement
receives exactly that most recently assigned flag, not necessarily the
current instruction's. -/
theorem c10_gather_output_threading :
    (∀ (slicer : SlicerFn) (bls : List String) (st : SStep) (pl : PolicyLayer),
      (processInstr slicer bls st pl).1.gather =
        if pl.kind = .col then some pl.gather_output else st.gather) ∧
    (∀ (st : SStep) (ign : Bool) (la : String) (wt : Tensor) (b2 : PyVal)
        (target : PyVal),
      getPath st.node (splitPath la) = some target →
      isinstanceOf target "Linear" = true → st.gather = none →
      replaceStep st ign "Linear1D_Col" la wt b2 = (st, some .unboundLocal)) ∧
    (∀ (st : SStep) (ign : Bool) (la : String) (wt : Tensor) (b2 : PyVal)
        (target : PyVal) (g : Bool),
      getPath st.node (splitPath la) = some target →
      isinstanceOf target "Linear" = true → st.gather = some g →
      (replaceStep st ign "Linear1D_Col" la wt b2).1.trace =
        st.trace ++
          [Event.mkLinear "Linear1D_Col" wt.rows wt.cols (!isNone b2)
            (some g)]) := by
  refine ⟨?_, ?_, ?_⟩
  · intro slicer bls st pl
    exact processInstr_gather slicer bls st pl
  · intro st ign la wt b2 target ht hli hg
    exact replaceStep_col_unbound st ign la wt b2 ht hli hg
  · intro st ign la wt b2 target g ht hli hg
    exact replaceStep_col_trace st ign la wt b2 ht hli hg

/-- C10 witness: with the local still unassigned (no `Col_Layer` processed
yet in the call), reaching the `Linear1D_Col` replacement on a linear target
raises the unbound-local error. -/
theorem c10_gather_output_threading_witness :
    replaceStep ⟨exNode, [], none, none, []⟩ false "Linear1D_Col" "query"
        exTensor .vnone =
      (⟨exNode, [], none, none, []⟩, some .unboundLocal) :=
  c10_gather_output_threading.2.1 ⟨exNode, [], none, none, []⟩ false "query"
    exTensor .vnone exLinear rfl rfl rfl

theorem Attrs.lookup_set_self :
    (as : Attrs) → (k : String) → (x : PyVal) →
      (as.set k x).lookup k = some x
  | .nil, k, x => by simp [Attrs.set, Attrs.lookup]
  | .cons k2 v rest, k, x => by
      rw [Attrs.set]
      by_cases hk : k2 = k
      · rw [if_pos hk, Attrs.lookup, if_pos hk]
      · rw [if_neg hk, Attrs.lookup, if_neg hk,
          Attrs.lookup_set_self rest k x]

theorem Attrs.lookup_set_other :
    (as : Attrs) → {k a : String} → (x : PyVal) → a ≠ k →
      (as.set a x).lookup k = as.lookup k
  | .nil, k, a, x, h => by simp [Attrs.set, Attrs.lookup, h]
  | .cons k2 v rest, k, a, x, h => by
      rw [Attrs.set]
      by_cases hk : k2 = a
      · rw [if_pos hk, Attrs.lookup, Attrs.lookup, hk]
        rw [if_neg h, if_neg (hk ▸ h)]
      · rw [if_neg hk, Attrs.lookup, Attrs.lookup,
          Attrs.lookup_set_other rest x h]

/-- Object test used to state facts about path walks. -/
def isObj : PyVal → Bool
  | .obj _ _ => true
  | _ => false

theorem setPath_not_obj {v : PyVal} (l : List String) (x : PyVal)
    (h : isObj v = false) : setPath v l x = none := by
  cases l with
  | nil => cases v <;> rfl
  | cons a r =>
      cases r with
      | nil => cases v <;> first | rfl | simp [isObj] at h
      | cons b r2 => cases v <;> first | rfl | simp [isObj] at h

theorem getPath_setPath_self {v v2 : PyVal} {p : List String} {x : PyVal}
    (h : setPath v p x = some v2) : getPath v2 p = some x := by
  induction p generalizing v v2 with
  | nil => rw [setPath] at h; exact absurd h (by simp)
  | cons k rest ih =>
      cases hvo : isObj v with
      | false =>
          rw [setPath_not_obj _ _ hvo] at h
          exact absurd h (by simp)
      | true =>
          cases v with
          | obj c as =>
              cases rest with
              | nil =>
                  rw [setPath] at h
                  injection h with h2
                  subst h2
                  simp only [getPath, Attrs.lookup_set_self]
              | cons k2 rest2 =>
                  rw [setPath] at h
                  cases hl : as.lookup k with
                  | none => simp only [hl] at h; exact absurd h (by simp)
                  | some child =>
                      simp only [hl] at h
                      cases hs : setPath child (k2 :: rest2) x with
                      | none => simp only [hs] at h; exact absurd h (by simp)
                      | some child2 =>
                          simp only [hs, Option.some.injEq] at h
                          subst h
                          simp only [getPath, Attrs.lookup_set_self]
                          exact ih hs
          | tensor t => simp [isObj] at hvo
          | vnone => simp [isObj] at hvo
          | vnat n => simp [isObj] at hvo
          | vbool b => simp [isObj] at hvo
          | vstr s => simp [isObj] at hvo

theorem getPath_setPath_frame {v v2 : PyVal} {q : List String} {a b : String}
    {x : PyVal} (hne : b ≠ a) (h : setPath v (q ++ [a]) x = some v2) :
    getPath v2 (q ++ [b]) = getPath v (q ++ [b]) := by
  induction q generalizing v v2 with
  | nil =>
      cases hvo : isObj v with
      | false =>
          rw [setPath_not_obj _ _ hvo] at h
          exact absurd h (by simp)
      | true =>
          cases v with
          | obj c as =>
              rw [List.nil_append] at h
              rw [setPath] at h
              injection h with h2
              subst h2
              simp only [List.nil_append, getPath]
              rw [Attrs.lookup_set_other as x (fun he => hne he.symm)]
          | tensor t => simp [isObj] at hvo
          | vnone => simp [isObj] at hvo
          | vnat n => simp [isObj] at hvo
          | vbool b2 => simp [isObj] at hvo
          | vstr s => simp [isObj] at hvo
  | cons k q2 ih =>
      cases hvo : isObj v with
      | false =>
          rw [setPath_not_obj _ _ hvo] at h
          exact absurd h (by simp)
      | true =>
          cases v with
          | obj c as =>
              rw [List.cons_append] at h
              cases hq : q2 ++ [a] with
              | nil => simp at hq
              | cons k2 rest2 =>
                  rw [hq, setPath] at h
                  cases hl : as.lookup k with
                  | none => simp only [hl] at h; exact absurd h (by simp)
                  | some child =>
                      simp only [hl] at h
                      cases hs : setPath child (k2 :: rest2) x with
                      | none => simp only [hs] at h; exact absurd h (by simp)
                      | some child2 =>
                          simp only [hs, Option.some.injEq] at h
                          subst h
                          simp only [List.cons_append, getPath,
                            Attrs.lookup_set_self, hl]
                          exact ih (by rw [hq]; exact hs)
          | tensor t => simp [isObj] at hvo
          | vnone => simp [isObj] at hvo
          | vnat n => simp [isObj] at hvo
          | vbool b2 => simp [isObj] at hvo
          | vstr s => simp [isObj] at hvo

/-- The prefix chain of a dotted path exists and consists of objects, so a
final-component `setattr` along it succeeds. -/
def chainOk : PyVal → List String → Prop
  | v, [] => isObj v = true
  | v, k :: q =>
      match v with
      | .obj _ as =>
          match as.lookup k with
          | some child => chainOk child q
          | none => False
      | _ => False

theorem setPath_of_chainOk {v : PyVal} {q : List String} (h : chainOk v q)
    (b : String) (y : PyVal) : ∃ w, setPath v (q ++ [b]) y = some w := by
  induction q generalizing v with
  | nil =>
      cases v with
      | obj c as => exact ⟨.obj c (as.set b y), rfl⟩
      | tensor t => simp [chainOk, isObj] at h
      | vnone => simp [chainOk, isObj] at h
      | vnat n => simp [chainOk, isObj] at h
      | vbool b2 => simp [chainOk, isObj] at h
      | vstr s => simp [chainOk, isObj] at h
  | cons k q2 ih =>
      cases v with
      | obj c as =>
          rw [chainOk] at h
          cases hl : as.lookup k with
          | none => rw [hl] at h; exact absurd h (by simp)
          | some child =>
              rw [hl] at h
              obtain ⟨w2, hw2⟩ := ih h
              refine ⟨.obj c (as.set k w2), ?_⟩
              rw [List.cons_append]
              cases hq : q2 ++ [b] with
              | nil => simp at hq
              | cons k2 rest2 =>
                  rw [setPath, hl]
                  rw [hq] at hw2
                  simp only [hw2]
      | tensor t => simp [chainOk] at h
      | vnone => simp [chainOk] at h
      | vnat n => simp [chainOk] at h
      | vbool b2 => simp [chainOk] at h
      | vstr s => simp [chainOk] at h

theorem getPath_not_obj {v : PyVal} (k : String) (rest : List String)
    (h : isObj v = false) : getPath v (k :: rest) = none := by
  cases v <;> first | rfl | simp [isObj] at h

theorem chainOk_of_getPath {v : PyVal} {q : List String} {b : String}
    {w : PyVal} (h : getPath v (q ++ [b]) = some w) : chainOk v q := by
  induction q generalizing v with
  | nil =>
      cases hvo : isObj v with
      | false =>
          rw [List.nil_append, getPath_not_obj _ _ hvo] at h
          exact absurd h (by simp)
      | true =>
          cases v with
          | obj c as => rw [chainOk]; rfl
          | tensor t => simp [isObj] at hvo
          | vnone => simp [isObj] at hvo
          | vnat n => simp [isObj] at hvo
          | vbool b2 => simp [isObj] at hvo
          | vstr s => simp [isObj] at hvo
  | cons k q2 ih =>
      cases hvo : isObj v with
      | false =>
          rw [List.cons_append, getPath_not_obj _ _ hvo] at h
          exact absurd h (by simp)
      | true =>
          cases v with
          | obj c as =>
              rw [List.cons_append, getPath] at h
              cases hl : as.lookup k with
              | none => simp only [hl] at h; exact absurd h (by simp)
              | some child =>
                  simp only [hl] at h
                  rw [chainOk, hl]
                  exact ih h
          | tensor t => simp [isObj] at hvo
          | vnone => simp [isObj] at hvo
          | vnat n => simp [isObj] at hvo
          | vbool b2 => simp [isObj] at hvo
          | vstr s => simp [isObj] at hvo

theorem chainOk_setPath {v v2 : PyVal} {q : List String} {a : String}
    {x : PyVal} (h : setPath v (q ++ [a]) x = some v2) : chainOk v2 q := by
  induction q generalizing v v2 with
  | nil =>
      cases hvo : isObj v with
      | false => rw [setPath_not_obj _ _ hvo] at h; exact absurd h (by simp)
      | true =>
          cases v with
          | obj c as =>
              rw [List.nil_append, setPath] at h
              injection h with h2
              subst h2
              rw [chainOk]; rfl
          | tensor t => simp [isObj] at hvo
          | vnone => simp [isObj] at hvo
          | vnat n => simp [isObj] at hvo
          | vbool b2 => simp [isObj] at hvo
          | vstr s => simp [isObj] at hvo
  | cons k q2 ih =>
      cases hvo : isObj v with
      | false => rw [setPath_not_obj _ _ hvo] at h; exact absurd h (by simp)
      | true =>
          cases v with
          | obj c as =>
              rw [List.cons_append] at h
              cases hq : q2 ++ [a] with
              | nil => simp at hq
              | cons k2 rest2 =>
                  rw [hq, setPath] at h
                  cases hl : as.lookup k with
                  | none => simp only [hl] at h; exact absurd h (by simp)
                  | some child =>
                      simp only [hl] at h
                      cases hs : setPath child (k2 :: rest2) x with
                      | none => simp only [hs] at h; exact absurd h (by simp)
                      | some child2 =>
                          simp only [hs, Option.some.injEq] at h
                          subst h
                          rw [chainOk, Attrs.lookup_set_self]
                          exact ih (by rw [hq]; exact hs)
          | tensor t => simp [isObj] at hvo
          | vnone => simp [isObj] at hvo
          | vnat n => simp [isObj] at hvo
          | vbool b2 => simp [isObj] at hvo
          | vstr s => simp [isObj] at hvo

theorem splitDot_append_dot (cs : List Char) {ls : List Char}
    (h : '.' ∉ ls) : splitDot (cs ++ '.' :: ls) = splitDot cs ++ [ls] := by
  induction cs with
  | nil =>
      rw [List.nil_append]
      simp [splitDot, splitDot_no_dot h]
  | cons c rest ih =>
      rw [List.cons_append, splitDot]
      by_cases hc : c = '.'
      · rw [if_pos hc, ih, splitDot, if_pos hc, List.cons_append]
      · rw [if_neg hc, ih, splitDot, if_neg hc]
        cases hsp : splitDot rest with
        | nil => exact absurd hsp (splitDot_ne_nil rest)
        | cons h1 t1 => rfl

/-- Appending a dot-free final component to a path appends one component to
its splitting. -/
theorem splitPath_append (s leaf : String) (h : '.' ∉ leaf.data) :
    splitPath (s ++ ("." ++ leaf)) = splitPath s ++ [leaf] := by
  rw [splitPath, splitPath, String.data_append, String.data_append]
  have hdot : ("." : String).data = ['.'] := rfl
  rw [hdot, List.singleton_append, splitDot_append_dot s.data h,
    List.map_append]
  rfl

theorem splitPath_weight (la : String) :
    splitPath (la ++ ".weight") = splitPath la ++ ["weight"] := by
  rw [(by decide : (".weight" : String) = "." ++ "weight")]
  exact splitPath_append la "weight" (by decide)

theorem splitPath_biasAttr (la : String) :
    splitPath (la ++ ".bias") = splitPath la ++ ["bias"] := by
  rw [(by decide : (".bias" : String) = "." ++ "bias")]
  exact splitPath_append la "bias" (by decide)

theorem splitPath_outF (la : String) :
    splitPath (la ++ ".out_features") = splitPath la ++ ["out_features"] := by
  rw [(by decide : (".out_features" : String) = "." ++ "out_features")]
  exact splitPath_append la "out_features" (by decide)

theorem splitPath_inF (la : String) :
    splitPath (la ++ ".in_features") = splitPath la ++ ["in_features"] := by
  rw [(by decide : (".in_features" : String) = "." ++ "in_features")]
  exact splitPath_append la "in_features" (by decide)

theorem sls_attr_step (l1 : PyVal) (la p attr : String) (n : Nat)
    (hp : splitPath p = splitPath la ++ [attr]) :
    ∃ l2, (if hasattr_ l1 p then setattrE l1 p (.vnat n) false
        else (l1, none)) = (l2, none) ∧
      (∀ w, getPath l1 (splitPath la ++ [attr]) = some w →
        getPath l2 (splitPath la ++ [attr]) = some (.vnat n)) ∧
      (getPath l1 (splitPath la ++ [attr]) = none →
        getPath l2 (splitPath la ++ [attr]) = none) ∧
      (∀ b, b ≠ attr →
        getPath l2 (splitPath la ++ [b]) = getPath l1 (splitPath la ++ [b])) := by
  cases h : getPath l1 (splitPath la ++ [attr]) with
  | some w =>
      have hc : chainOk l1 (splitPath la) := chainOk_of_getPath h
      obtain ⟨l2, hl2⟩ := setPath_of_chainOk hc attr (.vnat n)
      have hhas : hasattr_ l1 p = true := by
        rw [hasattr_, hp, h]; rfl
      refine ⟨l2, ?_, ?_, ?_, ?_⟩
      · rw [if_pos hhas, setattrE, hp, hl2]
      · intro w2 h2
        exact getPath_setPath_self hl2
      · intro h2
        exact absurd h2 (by simp)
      · intro b hb
        exact getPath_setPath_frame hb hl2
  | none =>
      have hhas : hasattr_ l1 p = false := by
        rw [hasattr_, hp, h]; rfl
      refine ⟨l1, ?_, ?_, ?_, ?_⟩
      · rw [if_neg (by rw [hhas]; simp)]
      · intro w2 h2
        exact absurd h2 (by simp)
      · intro h2
        exact h
      · intro b hb
        rfl

theorem set_layer_size_spec (l : PyVal) (la : String) (sz : Nat × Nat) :
    ∃ l2, set_layer_size l (.vstr la) sz = (l2, none) ∧
      (∀ w, getPath l (splitPath la ++ ["out_features"]) = some w →
        getPath l2 (splitPath la ++ ["out_features"]) = some (.vnat sz.1)) ∧
      (getPath l (splitPath la ++ ["out_features"]) = none →
        getPath l2 (splitPath la ++ ["out_features"]) = none) ∧
      (∀ w, getPath l (splitPath la ++ ["in_features"]) = some w →
        getPath l2 (splitPath la ++ ["in_features"]) = some (.vnat sz.2)) ∧
      (getPath l (splitPath la ++ ["in_features"]) = none →
        getPath l2 (splitPath la ++ ["in_features"]) = none) ∧
      (∀ b, b ≠ "out_features" → b ≠ "in_features" →
        getPath l2 (splitPath la ++ [b]) = getPath l (splitPath la ++ [b])) := by
  obtain ⟨l1, hstep1, hout_set, hout_none, hframe1⟩ :=
    sls_attr_step l la (la ++ ".out_features") "out_features" sz.1
      (splitPath_outF la)
  obtain ⟨l2, hstep2, hin_set, hin_none, hframe2⟩ :=
    sls_attr_step l1 la (la ++ ".in_features") "in_features" sz.2
      (splitPath_inF la)
  refine ⟨l2, ?_, ?_, ?_, ?_, ?_, ?_⟩
  · have hbody : set_layer_size l (.vstr la) sz =
        (match (if hasattr_ l (la ++ ".out_features")
            then setattrE l (la ++ ".out_features") (.vnat sz.1) false
            else (l, none)) with
         | (l1, some e) => (l1, some e)
         | (l1, none) =>
             if hasattr_ l1 (la ++ ".in_features")
             then setattrE l1 (la ++ ".in_features") (.vnat sz.2) false
             else (l1, none)) := rfl
    rw [hbody, hstep1]
    exact hstep2
  · intro w hw
    rw [hframe2 "out_features" (by decide)]
    exact hout_set w hw
  · intro hn
    rw [hframe2 "out_features" (by decide)]
    exact hout_none hn
  · intro w hw
    exact hin_set w (by rw [hframe1 "in_features" (by decide)]; exact hw)
  · intro hn
    exact hin_none (by rw [hframe1 "in_features" (by decide)]; exact hn)
  · intro b hbo hbi
    rw [hframe2 b hbi]
    exact hframe1 b hbo

theorem setParamBias_frame (l : PyVal) (la : String) (bias : PyVal)
    (hla : la ≠ "") (b : String) (hb : b ≠ "bias") :
    getPath (setParamBias l (.vstr la) bias).1 (splitPath la ++ [b]) =
      getPath l (splitPath la ++ [b]) := by
  rw [setParamBias]
  by_cases hn : isNone bias = true
  · rw [if_pos hn]
  · rw [if_neg hn]
    have hpath : (if pyEqEmptyStr (.vstr la) = true then Except.ok "bias"
        else pyAddStr (.vstr la) ".bias") = Except.ok (la ++ ".bias") := by
      simp [pyEqEmptyStr, hla, pyAddStr]
    simp only [hpath]
    cases bias with
    | tensor t =>
        rw [setattrE, splitPath_biasAttr]
        cases hs : setPath l (splitPath la ++ ["bias"]) (.tensor t) with
        | some l2 => exact getPath_setPath_frame hb hs
        | none => rfl
    | obj c as => rfl
    | vnone => simp [isNone] at hn
    | vnat n => rfl
    | vbool b2 => rfl
    | vstr s => rfl

/-- C8: when `set_param` installs a sliced weight tensor of shape `(r, c)` at
a dotted target `layer_attr` (the successful install is the hypothesis),
every `out_features` attribute that already exists at that target is
rewritten to `r` and every `in_features` attribute to `c`; an attribute that
does not exist at the target is not created. -/
theorem c8_layer_size_rewrite (layer : PyVal) (la : String) (t : Tensor)
    (bias : PyVal) (l1 : PyVal) (hla : la ≠ "")
    (hw : setPath layer (splitPath la ++ ["weight"]) (.tensor t) = some l1) :
    (∀ w, getPath layer (splitPath la ++ ["out_features"]) = some w →
      getPath (set_param layer (.vstr la) (.tensor t) bias).1
        (splitPath la ++ ["out_features"]) = some (.vnat t.rows)) ∧
    (getPath layer (splitPath la ++ ["out_features"]) = none →
      getPath (set_param layer (.vstr la) (.tensor t) bias).1
        (splitPath la ++ ["out_features"]) = none) ∧
    (∀ w, getPath layer (splitPath la ++ ["in_features"]) = some w →
      getPath (set_param layer (.vstr la) (.tensor t) bias).1
        (splitPath la ++ ["in_features"]) = some (.vnat t.cols)) ∧
    (getPath layer (splitPath la ++ ["in_features"]) = none →
      getPath (set_param layer (.vstr la) (.tensor t) bias).1
        (splitPath la ++ ["in_features"]) = none) := by
  obtain ⟨l2, hsls, hout_set, hout_none, hin_set, hin_none, hframe⟩ :=
    set_layer_size_spec l1 la (t.rows, t.cols)
  have hrun : set_param layer (.vstr la) (.tensor t) bias =
      setParamBias l2 (.vstr la) bias := by
    rw [set_param]
    rw [if_neg (by simp [isNone])]
    rw [if_neg (by simp [isNone])]
    have hpath : (if pyEqEmptyStr (.vstr la) = true then Except.ok "weight"
        else pyAddStr (.vstr la) ".weight") = Except.ok (la ++ ".weight") := by
      simp [pyEqEmptyStr, hla, pyAddStr]
    simp only [hpath]
    have hset : setattrE layer (la ++ ".weight") (.tensor t) false =
        (l1, none) := by
      rw [setattrE, splitPath_weight, hw]
    simp only [hset, hsls]
  have hwout : getPath l1 (splitPath la ++ ["out_features"]) =
      getPath layer (splitPath la ++ ["out_features"]) :=
    getPath_setPath_frame (by decide) hw
  have hwin : getPath l1 (splitPath la ++ ["in_features"]) =
      getPath layer (splitPath la ++ ["in_features"]) :=
    getPath_setPath_frame (by decide) hw
  refine ⟨?_, ?_, ?_, ?_⟩
  · intro w hwp
    rw [hrun, setParamBias_frame l2 la bias hla "out_features" (by decide)]
    exact hout_set w (by rw [hwout]; exact hwp)
  · intro hn
    rw [hrun, setParamBias_frame l2 la bias hla "out_features" (by decide)]
    exact hout_none (by rw [hwout]; exact hn)
  · intro w hwp
    rw [hrun, setParamBias_frame l2 la bias hla "in_features" (by decide)]
    exact hin_set w (by rw [hwin]; exact hwp)
  · intro hn
    rw [hrun, setParamBias_frame l2 la bias hla "in_features" (by decide)]
    exact hin_none (by rw [hwin]; exact hn)

/-- A module owning a linear layer at `fc` with cached size attributes
`out_features = 8`, `in_features = 4`. -/
def exFcLayer : PyVal :=
  .obj "Parent"
    (.cons "fc"
      (.obj "Linear"
        (.cons "weight" (.tensor ⟨8, 4, []⟩)
          (.cons "out_features" (.vnat 8) (.cons "in_features" (.vnat 4) .nil))))
      .nil)

/-- `exFcLayer` after the `(2, 3)` shard has been installed as `fc.weight`
(the size attributes not yet rewritten). -/
def exFcAfterW : PyVal :=
  .obj "Parent"
    (.cons "fc"
      (.obj "Linear"
        (.cons "weight" (.tensor exTensor)
          (.cons "out_features" (.vnat 8) (.cons "in_features" (.vnat 4) .nil))))
      .nil)

/-- C8 witness: installing the `(2, 3)` shard at `fc` rewrites the existing
`fc.out_features` from 8 to 2. -/
theorem c8_layer_size_rewrite_witness :
    getPath (set_param exFcLayer (.vstr "fc") (.tensor exTensor) .vnone).1
      (splitPath "fc" ++ ["out_features"]) = some (.vnat 2) :=
  (c8_layer_size_rewrite exFcLayer "fc" exTensor .vnone exFcAfterW
    (by decide) (by decide)).1 (.vnat 8) (by decide)

mutual
/-- The traversal behaviour the (amended) claim C2 describes, written from
its words for the observable case of an empty instruction list: visit every
node of the tree; a child whose class equals `origin_cls` receives every
`attr_dict` override (missing targets silently skipped, which is
`applyAttrDict`) and is not descended into; every other child is recursed
into, pre-order, in child-iteration order; the root itself is never
matched, only recursed into. -/
def specMark (origin : String) (d : List (String × PyVal)) : PyVal → PyVal
  | .obj c as => .obj c (specMarkChildren origin d as)
  | v => v

/-- The child-list part of `specMark`. -/
def specMarkChildren (origin : String) (d : List (String × PyVal)) :
    Attrs → Attrs
  | .nil => .nil
  | .cons k v rest =>
      if isinstanceOf v origin then
        .cons k (applyAttrDict d v) (specMarkChildren origin d rest)
      else
        .cons k (specMark origin d v) (specMarkChildren origin d rest)
end

theorem shard_one_layer_nil (slicer : SlicerFn) (bls : List String)
    (v : PyVal) (bm : List (String × PyVal × PyVal)) (tr : List Event) :
    shard_one_layer slicer bls v bm tr [] = ((v, bm, tr), none) := rfl

mutual
theorem rrl_mark (slicer : SlicerFn) (origin : String)
    (d : List (String × PyVal)) (bls : List String) :
    (v : PyVal) → ∀ bm tr,
      reverse_replace_layer slicer origin d [] bls v bm tr =
        ((specMark origin d v, bm, tr), none)
  | .obj c as => fun bm tr => by
      rw [reverse_replace_layer]
      simp only [rrlChildren_mark slicer origin d bls as]
      rw [specMark]
  | .tensor t => fun bm tr => rfl
  | .vnone => fun bm tr => rfl
  | .vnat n => fun bm tr => rfl
  | .vbool b => fun bm tr => rfl
  | .vstr s => fun bm tr => rfl

theorem rrlChildren_mark (slicer : SlicerFn) (origin : String)
    (d : List (String × PyVal)) (bls : List String) :
    (as : Attrs) → ∀ bm tr,
      rrlChildren slicer origin d [] bls as bm tr =
        ((specMarkChildren origin d as, bm, tr), none)
  | .nil => fun bm tr => rfl
  | .cons k v rest => fun bm tr => by
      rw [rrlChildren]
      by_cases hm : isinstanceOf v origin
      · rw [if_pos hm]
        simp only [shard_one_layer_nil,
          rrlChildren_mark slicer origin d bls rest]
        rw [specMarkChildren, if_pos hm]
      · rw [if_neg hm]
        simp only [rrl_mark slicer origin d bls v,
          rrlChildren_mark slicer origin d bls rest]
        rw [specMarkChildren, if_neg hm]
end

/-- C2 (amended): one rule's traversal, `reverse_replace_layer`, agrees with
the claim's described traversal on every tree — restricted to proper
descendants of the root.  The per-matched-node action (here: the attribute
overrides, with an empty instruction list so that `shard_one_layer` is the
identity) is applied to exactly the nodes the claim designates: each child
whose class equals `origin_cls` receives every `attr_dict` override and its
subtree is not descended into (so matches nested inside a matched subtree
are *not* visited), every other node is recursed into pre-order in
child-iteration order — but the root node itself is never tested against
`origin_cls` (see the counterexample), which is the one correction to the
claim. -/
theorem c2_traversal_matched_set (slicer : SlicerFn) (origin : String)
    (d : List (String × PyVal)) (bls : List String) (tree : PyVal)
    (bm : List (String × PyVal × PyVal)) (tr : List Event) :
    reverse_replace_layer slicer origin d [] bls tree bm tr =
      ((specMark origin d tree, bm, tr), none) :=
  rrl_mark slicer origin d bls tree bm tr

/-- C2 counterexample: a root whose class equals `origin_cls` is not matched
by the traversal — `reverse_replace_layer` returns it untouched (no
override applied, no error), while the claim says every node *including the
root model node itself* with a matching class receives every `attr_dict`
override; applying the override would have produced the distinct marked
node shown. -/
theorem c2_root_not_matched :
    reverse_replace_layer idSlicer "T" [("m", .vnat 1)] [] []
        (.obj "T" .nil) [] [] = ((.obj "T" .nil, [], []), none) ∧
    getPath (.obj "T" .nil) ["m"] = none ∧
    (setattrE (.obj "T" .nil) "m" (.vnat 1) true).1 =
      .obj "T" (.cons "m" (.vnat 1) .nil) ∧
    (.obj "T" .nil : PyVal) ≠ .obj "T" (.cons "m" (.vnat 1) .nil) :=
  ⟨rrl_mark idSlicer "T" [("m", .vnat 1)] [] (.obj "T" .nil) [] [],
    by decide, by decide, by decide⟩

/-- The binding-map writes recorded in a trace, in order. -/
def bindsOf : List Event → List (String × PyVal × PyVal)
  | [] => []
  | e :: rest =>
      match e with
      | .bindWrite k w b => (k, w, b) :: bindsOf rest
      | _ => bindsOf rest

/-- Replay a list of binding-map writes. -/
def applyBinds (bm : List (String × PyVal × PyVal))
    (l : List (String × PyVal × PyVal)) : List (String × PyVal × PyVal) :=
  l.foldl (fun acc e => bmSet acc e.1 e.2.1 e.2.2) bm

/-- The most recent write to a key in a list of binding-map writes. -/
def lastWrite : List (String × PyVal × PyVal) → String →
    Option (PyVal × PyVal)
  | [], _ => none
  | e :: rest, k =>
      match lastWrite rest k with
      | some p => some p
      | none => if e.1 = k then some e.2 else none

/-- One pass step relates binding map and trace before and after: the trace
grows by a suffix and the new binding map is the old one with exactly that
suffix's writes replayed. -/
def BindStep (bm : List (String × PyVal × PyVal)) (tr : List Event)
    (bm2 : List (String × PyVal × PyVal)) (tr2 : List Event) : Prop :=
  ∃ d, tr2 = tr ++ d ∧ bm2 = applyBinds bm (bindsOf d)

theorem bindsOf_append (a b : List Event) :
    bindsOf (a ++ b) = bindsOf a ++ bindsOf b := by
  induction a with
  | nil => rfl
  | cons e rest ih =>
      cases e with
      | bindWrite k w bb =>
          simp only [List.cons_append, bindsOf]
          exact congrArg (List.cons (k, w, bb)) ih
      | mkLinear c a0 a1 bf g =>
          simp only [List.cons_append, bindsOf]
          exact ih
      | mkEmbedding c a0 a1 p =>
          simp only [List.cons_append, bindsOf]
          exact ih

theorem applyBinds_append (bm : List (String × PyVal × PyVal))
    (a b : List (String × PyVal × PyVal)) :
    applyBinds bm (a ++ b) = applyBinds (applyBinds bm a) b :=
  List.foldl_append _ _ a b

theorem bindStep_of_eq {bm tr bm2 tr2} (h1 : bm2 = bm) (h2 : tr2 = tr) :
    BindStep bm tr bm2 tr2 :=
  ⟨[], by simp [h2], by simp [h1, applyBinds, bindsOf]⟩

theorem bindStep_trans {bm tr bm2 tr2 bm3 tr3}
    (h1 : BindStep bm tr bm2 tr2) (h2 : BindStep bm2 tr2 bm3 tr3) :
    BindStep bm tr bm3 tr3 := by
  obtain ⟨d1, ht1, hb1⟩ := h1
  obtain ⟨d2, ht2, hb2⟩ := h2
  exact ⟨d1 ++ d2, by rw [ht2, ht1, List.append_assoc],
    by rw [hb2, hb1, bindsOf_append, applyBinds_append]⟩

theorem bindsOf_bindEvents (keys : List String) (w b : PyVal) :
    bindsOf (bindEvents keys w b) = keys.map fun k => (k, w, b) := by
  induction keys with
  | nil => rfl
  | cons k rest ih =>
      simp only [bindEvents, List.map_cons, bindsOf] at ih ⊢
      rw [ih]

theorem applyBinds_bindAll (bm : List (String × PyVal × PyVal))
    (keys : List String) (w b : PyVal) :
    applyBinds bm (keys.map fun k => (k, w, b)) = bindAll bm keys w b := by
  rw [applyBinds, bindAll, List.foldl_map]

theorem installReplacement_bindStep (st : SStep) (ign : Bool) (la : String)
    (repl w b : PyVal) :
    BindStep st.bm st.trace (installReplacement st ign la repl w b).1.bm
      (installReplacement st ign la repl w b).1.trace :=
  bindStep_of_eq (installReplacement_frame st ign la repl w b).1
    (installReplacement_frame st ign la repl w b).2.2.1

theorem replaceStep_bindStep (st : SStep) (ign : Bool) (rcls la : String)
    (wt : Tensor) (b2 : PyVal) :
    BindStep st.bm st.trace (replaceStep st ign rcls la wt b2).1.bm
      (replaceStep st ign rcls la wt b2).1.trace := by
  rw [replaceStep]
  cases ht : getPath st.node (splitPath la) with
  | none => exact bindStep_of_eq rfl rfl
  | some target =>
      by_cases hl : isinstanceOf target "Linear"
      · simp only [hl, if_true]
        by_cases hr : rcls = "Linear1D_Row"
        · rw [if_pos hr]
          refine ⟨[Event.mkLinear rcls wt.cols wt.rows (!isNone b2) none], ?_, ?_⟩
          · rw [(installReplacement_frame _ _ _ _ _ _).2.2.1]
          · rw [(installReplacement_frame _ _ _ _ _ _).1]
            rfl
        · rw [if_neg hr]
          by_cases hc : rcls = "Linear1D_Col"
          · rw [if_pos hc]
            cases hg : st.gather with
            | some g =>
                refine ⟨[Event.mkLinear rcls wt.rows wt.cols (!isNone b2)
                  (some g)], ?_, ?_⟩
                · rw [(installReplacement_frame _ _ _ _ _ _).2.2.1]
                · rw [(installReplacement_frame _ _ _ _ _ _).1]
                  rfl
            | none => exact bindStep_of_eq rfl rfl
          · rw [if_neg hc]
            cases hrv : st.replVar with
            | some stale =>
                exact bindStep_of_eq (installReplacement_frame _ _ _ _ _ _).1
                  (installReplacement_frame _ _ _ _ _ _).2.2.1
            | none => exact bindStep_of_eq rfl rfl
      · simp only [hl, Bool.false_eq_true, if_false]
        by_cases he : isinstanceOf target "Embedding"
        · simp only [he, if_true]
          refine ⟨[Event.mkEmbedding rcls wt.rows wt.cols
            (getattrIgnored st.node (la ++ ".padding_idx"))], ?_, ?_⟩
          · rw [(installReplacement_frame _ _ _ _ _ _).2.2.1]
          · rw [(installReplacement_frame _ _ _ _ _ _).1]
            rfl
        · simp only [he, Bool.false_eq_true, if_false]
          exact bindStep_of_eq rfl rfl

theorem afterSlice_bindStep (bls : List String) (st : SStep)
    (pl : PolicyLayer) (la : String) (w2 b2 : PyVal) :
    BindStep st.bm st.trace (afterSlice bls st pl la w2 b2).1.bm
      (afterSlice bls st pl la w2 b2).1.trace := by
  cases w2 with
  | tensor wt =>
      rw [afterSlice]
      by_cases hb : (!isNone b2 && !isTensor b2) = true
      · rw [if_pos hb]
        exact bindStep_of_eq rfl rfl
      · rw [if_neg hb]
        have hstep1 : BindStep st.bm st.trace
            (bindAll st.bm bls (.tensor wt) b2)
            (st.trace ++ bindEvents bls (.tensor wt) b2) :=
          ⟨bindEvents bls (.tensor wt) b2, rfl,
            by rw [bindsOf_bindEvents, applyBinds_bindAll]⟩
        cases hrc : pl.replace_layer with
        | some rcls =>
            exact bindStep_trans hstep1
              (replaceStep_bindStep
                {st with bm := bindAll st.bm bls (.tensor wt) b2,
                         trace := st.trace ++ bindEvents bls (.tensor wt) b2}
                pl.ignore rcls la wt b2)
        | none => exact bindStep_trans hstep1 (bindStep_of_eq rfl rfl)
  | obj c as => exact bindStep_of_eq rfl rfl
  | vnone => exact bindStep_of_eq rfl rfl
  | vnat n => exact bindStep_of_eq rfl rfl
  | vbool b => exact bindStep_of_eq rfl rfl
  | vstr s => exact bindStep_of_eq rfl rfl

theorem afterResolve_bindStep (slicer : SlicerFn) (bls : List String)
    (st : SStep) (pl : PolicyLayer) (weight bias : PyVal) :
    BindStep st.bm st.trace (afterResolve slicer bls st pl weight bias).1.bm
      (afterResolve slicer bls st pl weight bias).1.trace := by
  rw [afterResolve]
  by_cases h1 : (isNone weight && isNone bias && pl.ignore) = true
  · rw [if_pos h1]
    exact bindStep_of_eq rfl rfl
  · rw [if_neg h1]
    by_cases h2 : (isNone weight && isNone bias) = true
    · rw [if_pos h2]
      exact bindStep_of_eq rfl rfl
    · rw [if_neg h2]
      cases h3 : pyOrStr pl.weight pl.bias with
      | none => exact bindStep_of_eq rfl rfl
      | some wb => exact afterSlice_bindStep bls st pl (stripToLastDot wb) _ _

theorem processInstr_bindStep (slicer : SlicerFn) (bls : List String)
    (st : SStep) (pl : PolicyLayer) :
    BindStep st.bm st.trace (processInstr slicer bls st pl).1.bm
      (processInstr slicer bls st pl).1.trace := by
  rw [processInstr]
  cases hw : resolveAttr (gatherUpd st pl).node pl.weight pl.ignore with
  | error e => exact bindStep_of_eq (gatherUpd_bm st pl) (gatherUpd_trace st pl)
  | ok w =>
      cases hb : resolveAttr (gatherUpd st pl).node pl.bias pl.ignore with
      | error e =>
          exact bindStep_of_eq (gatherUpd_bm st pl) (gatherUpd_trace st pl)
      | ok b =>
          have h := afterResolve_bindStep slicer bls (gatherUpd st pl) pl w b
          rw [gatherUpd_bm, gatherUpd_trace] at h
          exact h

theorem processInstrs_bindStep (slicer : SlicerFn) (bls : List String) :
    (pls : List PolicyLayer) → ∀ st,
      BindStep st.bm st.trace (processInstrs slicer bls st pls).1.bm
        (processInstrs slicer bls st pls).1.trace
  | [] => fun st => bindStep_of_eq rfl rfl
  | pl :: rest => fun st => by
      rw [processInstrs]
      cases hp : processInstr slicer bls st pl with
      | mk st2 e =>
          have h1 : BindStep st.bm st.trace st2.bm st2.trace := by
            have h := processInstr_bindStep slicer bls st pl
            rw [hp] at h
            exact h
          cases e with
          | none =>
              exact bindStep_trans h1
                (processInstrs_bindStep slicer bls rest st2)
          | some e2 => exact h1

theorem processFuncs_bindStep (slicer : SlicerFn) (bls : List String) :
    (fs : List (List PolicyLayer)) → ∀ st,
      BindStep st.bm st.trace (processFuncs slicer bls st fs).1.bm
        (processFuncs slicer bls st fs).1.trace
  | [] => fun st => bindStep_of_eq rfl rfl
  | f :: rest => fun st => by
      rw [processFuncs]
      cases hp : processInstrs slicer bls st f with
      | mk st2 e =>
          have h1 : BindStep st.bm st.trace st2.bm st2.trace := by
            have h := processInstrs_bindStep slicer bls f st
            rw [hp] at h
            exact h
          cases e with
          | none =>
              exact bindStep_trans h1
                (processFuncs_bindStep slicer bls rest st2)
          | some e2 => exact h1

theorem shard_one_layer_bindStep (slicer : SlicerFn) (bls : List String)
    (node : PyVal) (bm : List (String × PyVal × PyVal)) (tr : List Event)
    (fs : List (List PolicyLayer)) :
    BindStep bm tr (shard_one_layer slicer bls node bm tr fs).1.2.1
      (shard_one_layer slicer bls node bm tr fs).1.2.2 :=
  processFuncs_bindStep slicer bls fs ⟨node, bm, none, none, tr⟩

mutual
theorem rrl_bindStep (slicer : SlicerFn) (origin : String)
    (d : List (String × PyVal)) (fs : List (List PolicyLayer))
    (bls : List String) :
    (v : PyVal) → ∀ bm tr,
      BindStep bm tr
        (reverse_replace_layer slicer origin d fs bls v bm tr).1.2.1
        (reverse_replace_layer slicer origin d fs bls v bm tr).1.2.2
  | .obj c as => fun bm tr => by
      rw [reverse_replace_layer]
      cases hr : rrlChildren slicer origin d fs bls as bm tr with
      | mk r e =>
          have h := rrlChildren_bindStep slicer origin d fs bls as bm tr
          rw [hr] at h
          obtain ⟨as2, bm2, tr2⟩ := r
          exact h
  | .tensor t => fun bm tr => bindStep_of_eq rfl rfl
  | .vnone => fun bm tr => bindStep_of_eq rfl rfl
  | .vnat n => fun bm tr => bindStep_of_eq rfl rfl
  | .vbool b => fun bm tr => bindStep_of_eq rfl rfl
  | .vstr s => fun bm tr => bindStep_of_eq rfl rfl

theorem rrlChildren_bindStep (slicer : SlicerFn) (origin : String)
    (d : List (String × PyVal)) (fs : List (List PolicyLayer))
    (bls : List String) :
    (as : Attrs) → ∀ bm tr,
      BindStep bm tr (rrlChildren slicer origin d fs bls as bm tr).1.2.1
        (rrlChildren slicer origin d fs bls as bm tr).1.2.2
  | .nil => fun bm tr => bindStep_of_eq rfl rfl
  | .cons k v rest => fun bm tr => by
      rw [rrlChildren]
      by_cases hm : isinstanceOf v origin
      · rw [if_pos hm]
        rcases hs : shard_one_layer slicer bls (applyAttrDict d v) bm tr fs
          with ⟨⟨v2, bm2, tr2⟩, e⟩
        have h1 : BindStep bm tr bm2 tr2 := by
          have h := shard_one_layer_bindStep slicer bls
            (applyAttrDict d v) bm tr fs
          rw [hs] at h
          exact h
        cases e with
        | some e2 => simp only [hs]; exact h1
        | none =>
            simp only [hs]
            rcases hrest : rrlChildren slicer origin d fs bls rest bm2 tr2
              with ⟨⟨rest2, bm3, tr3⟩, e2⟩
            simp only [hrest]
            have h2 : BindStep bm2 tr2 bm3 tr3 := by
              have h := rrlChildren_bindStep slicer origin d fs bls
                rest bm2 tr2
              rw [hrest] at h
              exact h
            exact bindStep_trans h1 h2
      · rw [if_neg hm]
        rcases hs : reverse_replace_layer slicer origin d fs bls v bm tr
          with ⟨⟨v2, bm2, tr2⟩, e⟩
        have h1 : BindStep bm tr bm2 tr2 := by
          have h := rrl_bindStep slicer origin d fs bls v bm tr
          rw [hs] at h
          exact h
        cases e with
        | some e2 => simp only [hs]; exact h1
        | none =>
            simp only [hs]
            rcases hrest : rrlChildren slicer origin d fs bls rest bm2 tr2
              with ⟨⟨rest2, bm3, tr3⟩, e2⟩
            simp only [hrest]
            have h2 : BindStep bm2 tr2 bm3 tr3 := by
              have h := rrlChildren_bindStep slicer origin d fs bls
                rest bm2 tr2
              rw [hrest] at h
              exact h
            exact bindStep_trans h1 h2
end

theorem replace_layer_bindStep (slicer : SlicerFn) :
    (rules : List Rule) → ∀ (model : PyVal) bm tr,
      BindStep bm tr (replace_layer slicer rules model bm tr).1.2.1
        (replace_layer slicer rules model bm tr).1.2.2
  | [] => fun model bm tr => bindStep_of_eq rfl rfl
  | r :: rest => fun model bm tr => by
      rw [replace_layer]
      cases hs : reverse_replace_layer slicer r.origin_cls r.attr_dict
          r.param_funcs r.binding_layers model bm tr with
      | mk res e =>
          obtain ⟨m2, bm2, tr2⟩ := res
          have h1 : BindStep bm tr bm2 tr2 := by
            have h := rrl_bindStep slicer r.origin_cls r.attr_dict
              r.param_funcs r.binding_layers model bm tr
            rw [hs] at h
            exact h
          cases e with
          | some e2 => exact h1
          | none =>
              exact bindStep_trans h1
                (replace_layer_bindStep slicer rest m2 bm2 tr2)

theorem bmGet_bmSet (bm : List (String × PyVal × PyVal)) (k2 k : String)
    (w b : PyVal) :
    bmGet (bmSet bm k2 w b) k =
      if k2 = k then some (w, b) else bmGet bm k := by
  induction bm with
  | nil =>
      by_cases h : k2 = k
      · simp [bmSet, bmGet, h]
      · simp [bmSet, bmGet, h]
  | cons e rest ih =>
      rw [bmSet]
      by_cases he : e.1 = k2
      · rw [if_pos he, bmGet]
        by_cases hk : k2 = k
        · rw [if_pos hk, if_pos hk]
        · rw [if_neg hk, if_neg hk, bmGet, if_neg (by rw [he]; exact hk)]
      · rw [if_neg he, bmGet, bmGet]
        by_cases hek : e.1 = k
        · rw [if_pos hek, if_pos hek]
          rw [if_neg (fun h2 => he ((h2.trans hek.symm).symm))]
        · rw [if_neg hek, if_neg hek, ih]

theorem bmGet_applyBinds (l : List (String × PyVal × PyVal))
    (bm : List (String × PyVal × PyVal)) (k : String) :
    bmGet (applyBinds bm l) k =
      match lastWrite l k with
      | some p => some p
      | none => bmGet bm k := by
  induction l generalizing bm with
  | nil => rfl
  | cons e rest ih =>
      rw [lastWrite]
      have happ : applyBinds bm (e :: rest) =
          applyBinds (bmSet bm e.1 e.2.1 e.2.2) rest := rfl
      rw [happ, ih]
      cases hlw : lastWrite rest k with
      | some p => rfl
      | none =>
          rw [bmGet_bmSet]
          by_cases hk : e.1 = k
          · rw [if_pos hk, if_pos hk]
          · rw [if_neg hk, if_neg hk]

/-- C3: within one pass (`replace_layer` over all rules, starting from an
empty event trace), every instruction that slices overwrites the binding-map
entry of each class in its rule's `binding_layers` with the just-sliced
shard pair, so the map has single-writer-per-key, last-write-wins semantics:
for every key, the final binding map — as read by the (spec-modelled)
consumer `bindingReuse`, through which bound layer classes reuse rather than
re-slice their tensors — holds exactly the most recently recorded shard
pair for that key (or the initial entry when the pass never wrote the
key). -/
theorem c3_binding_last_write (slicer : SlicerFn) (rules : List Rule)
    (model : PyVal) (bm0 : List (String × PyVal × PyVal)) (k : String) :
    bindingReuse (replace_layer slicer rules model bm0 []).1.2.1 k =
      match lastWrite
          (bindsOf (replace_layer slicer rules model bm0 []).1.2.2) k with
      | some p => some p
      | none => bmGet bm0 k := by
  obtain ⟨d, hTr, hBm⟩ := replace_layer_bindStep slicer rules model bm0 []
  rw [List.nil_append] at hTr
  rw [bindingReuse, hBm, bmGet_applyBinds, hTr]

/-- C5 witness: a mismatched class raises with the table untouched, and on a
matching class the shared key `"forward"` is rebound to the shard-aware
definition. -/
theorem c5_inject_model_witness :
    inject_model ⟨"GPT2", [("forward", .vnat 1)]⟩ ⟨"Bert", []⟩ ⟨"Bert2", []⟩ =
      (⟨"GPT2", [("forward", .vnat 1)]⟩, some .notImplemented) ∧
    dictLookup (inject_model ⟨"Bert", [("forward", .vnat 1)]⟩
        ⟨"Bert", [("forward", .vnat 1)]⟩
        ⟨"Bert2", [("forward", .vnat 2), ("extra", .vnat 3)]⟩).1.dict
      "forward" = some (.vnat 2) :=
  ⟨(c5_inject_model _ _ _).1 (by decide),
   (c5_inject_model _ _ _).2 rfl (by decide) "forward" (.vnat 2) (by decide)
     (by decide)⟩

end Sharder
